import Mathlib

/-!
Verification development for the `codebase_to_text` package.

The development shallowly embeds the package's two Python modules:

* `codebase_to_text/codebase_to_text.py` — the main module (the setup.py
  console-script entry point `codebase_to_text.codebase_to_text:main`):
  class `CodebaseToText` with its exclusion-pattern engine
  (`_should_exclude`, `_pattern_matches`, `_dir_pattern_match`,
  `_recursive_pattern_match`, `_is_hidden_file`), its two traversal passes
  (`_parse_folder` and `_process_files`), content formatting
  (`_get_file_contents`, `_format_file_content`), and the artifact
  assembly (`get_text`, `get_file`).
* `codebase_to_text/cli.py` — the legacy module, of which we embed the
  binary-file handling (`_is_binary_file` and the per-file record logic of
  `_process_files`).

Strings are modelled as `List Char` (`Str`), paths use the POSIX separator
`'/'` (`os.sep`), and the Python standard-library string and path helpers
used by the source (`str.split`, `str.strip`, `str.replace`,
`fnmatch.fnmatch`, `os.path.basename`, `os.path.join`, `os.path.normpath`,
`os.path.relpath`, `os.path.splitext`) are embedded as executable
functions below. The file system handed to the traversal is modelled as a
tree of named directories and files with byte contents; directory
enumeration (`os.walk`) is depth-first in child-list order, with the
source's in-place pruning of the `dirs` list rendered as a keep-predicate
on the recursive descent.
-/

/-- Strings of the model: Python `str` values as lists of characters. -/
abbrev Str := List Char

/-! ### Python standard-library string helpers -/

/-- Python `str.split(sep)` with a one-character separator: empty input
gives `[""]`, and adjacent separators give empty fields. -/
def pySplit (sep : Char) : Str → List Str
  | [] => [[]]
  | c :: rest =>
    match pySplit sep rest with
    | [] => [[]]
    | h :: t => if c = sep then [] :: h :: t else (c :: h) :: t

/-- Characters stripped by Python `str.strip()` (ASCII whitespace). -/
def isPySpace (c : Char) : Bool :=
  c = ' ' || c = '\t' || c = '\n' || c = '\r' ||
  c = Char.ofNat 11 || c = Char.ofNat 12

/-- Python `str.strip()`: remove leading and trailing whitespace. -/
def pyStrip (x : Str) : Str :=
  ((x.dropWhile isPySpace).reverse.dropWhile isPySpace).reverse

/-- Fuel-driven worker for `pyReplace`; the fuel never runs out when it
starts at the length of the subject string. -/
def pyReplaceF (old new : Str) : Nat → Str → Str
  | _, [] => []
  | 0, x => x
  | fuel + 1, c :: rest =>
    if old ≠ [] ∧ old.isPrefixOf (c :: rest) then
      new ++ pyReplaceF old new fuel (rest.drop (old.length - 1))
    else
      c :: pyReplaceF old new fuel rest

/-- Python `str.replace(old, new)`: leftmost, non-overlapping. -/
def pyReplace (old new x : Str) : Str := pyReplaceF old new x.length x

/-- Python `sub in x` substring test. -/
def hasSubstr (x sub : Str) : Bool :=
  match x with
  | [] => sub.isEmpty
  | _ :: rest => sub.isPrefixOf x || hasSubstr rest sub

/-- Python `str.endswith` for a single-character suffix. -/
def endsWithChar (x : Str) (c : Char) : Bool := x.getLast? == some c

/-- Python `str.rstrip('/')`: drop every trailing slash. -/
def rstripSlashes (x : Str) : Str :=
  (x.reverse.dropWhile (· = '/')).reverse

/-! ### fnmatch

`fnmatch.fnmatch(name, pattern)` on POSIX (where `normcase` is the
identity): the whole name must match the whole pattern, `*` matches any
character sequence (the translated regex runs in dot-all mode and is not
slash-aware), `?` matches one character, and `[...]`/`[!...]` match
character sets with ranges; an unclosed `[` is a literal character. -/

/-- Match one character against the body of a `[...]` character class,
with `a-b` ranges and literal hyphens at the edges. -/
def bracketMatch : Str → Char → Bool
  | a :: '-' :: b :: rest, c => (a ≤ c && c ≤ b) || bracketMatch rest c
  | a :: rest, c => (a == c) || bracketMatch rest c
  | [], _ => false

/-- Scan for the `]` closing a character class, returning the class body
and the remaining pattern. -/
def breakOnClose : Str → Option (Str × Str)
  | [] => none
  | ']' :: t => some ([], t)
  | c :: t =>
    match breakOnClose t with
    | some (content, rest) => some (c :: content, rest)
    | none => none

/-- Parse the pattern text after a `[`: an optional leading `!` negates,
a `]` directly after that is part of the class body. `none` when the
class is never closed (then the `[` is a literal). -/
def splitBracket (ps : Str) : Option (Bool × Str × Str) :=
  let p := match ps with
    | '!' :: t => (true, t)
    | _ => (false, ps)
  match p.2 with
  | ']' :: t =>
    match breakOnClose t with
    | some (content, rest) => some (p.1, ']' :: content, rest)
    | none => none
  | other =>
    match breakOnClose other with
    | some (content, rest) => some (p.1, content, rest)
    | none => none

/-- Fuel-driven glob matcher: `globF fuel pattern name`. Each step
shortens `pattern.length + name.length`, so fuel starting above that sum
never runs out. -/
def globF : Nat → Str → Str → Bool
  | 0, _, _ => false
  | _ + 1, [], [] => true
  | fuel + 1, '*' :: ps, [] => globF fuel ps []
  | _ + 1, _ :: _, [] => false
  | _ + 1, [], _ :: _ => false
  | fuel + 1, '*' :: ps, c :: cs =>
    globF fuel ps (c :: cs) || globF fuel ('*' :: ps) cs
  | fuel + 1, '?' :: ps, _ :: cs => globF fuel ps cs
  | fuel + 1, '[' :: ps, c :: cs =>
    (match splitBracket ps with
     | some (neg, content, rest) =>
       (if neg then !(bracketMatch content c) else bracketMatch content c)
         && globF fuel rest cs
     | none => ('[' == c) && globF fuel ps cs)
  | fuel + 1, p :: ps, c :: cs => (p == c) && globF fuel ps cs

/-- Python `fnmatch.fnmatch(name, pattern)` (POSIX case-sensitive). -/
def fnmatch (name pattern : Str) : Bool :=
  globF (pattern.length + name.length + 1) pattern name

/-! ### POSIX path helpers -/

/-- Python `os.path.basename` on POSIX: everything after the last `/`. -/
def basename (p : Str) : Str := (pySplit '/' p).getLastD []

/-- Python `os.path.join(root, name)` on POSIX for one component. -/
def pathJoin (root name : Str) : Str :=
  if name.head? = some '/' then name
  else if root = [] ∨ root.getLast? = some '/' then root ++ name
  else root ++ '/' :: name

/-- Python `os.path.normpath` on POSIX: collapse repeated slashes, drop
`.` components, resolve `..` against preceding components, preserve one
or exactly two leading slashes. -/
def normpath (p : Str) : Str :=
  if p = [] then ['.']
  else
    let initialSlashes : Nat :=
      if p.head? = some '/' then
        if p.take 2 = ['/', '/'] ∧ p.take 3 ≠ ['/', '/', '/'] then 2 else 1
      else 0
    let comps := pySplit '/' p
    let newComps := comps.foldl (fun acc comp =>
      if comp = [] ∨ comp = ['.'] then acc
      else if comp ≠ ['.', '.'] ∨ (initialSlashes = 0 ∧ acc = [])
              ∨ acc.getLast? = some ['.', '.'] then acc ++ [comp]
      else if acc ≠ [] then acc.dropLast
      else acc) []
    let joined := List.replicate initialSlashes '/' ++
      List.intercalate ['/'] newComps
    if joined = [] then ['.'] else joined

/-- Python `os.path.relpath(path, start)` on POSIX, for the inputs the
traversal produces: `path` is `start` itself or a `os.path.join`-built
descendant of it. (On POSIX `relpath` never raises, so the `ValueError`
fallback of `_normalize_path` is dead code; paths outside `start` are
returned unchanged here, a case the walker never generates.) -/
def relpath (path start : Str) : Str :=
  if path = start then ['.']
  else if (start ++ ['/']).isPrefixOf path then path.drop (start.length + 1)
  else path

/-- Extension part of Python `os.path.splitext`: the suffix of the last
path component starting at its last dot, except that dots forming a
leading run of the component do not count. -/
def splitext_ext (p : Str) : Str :=
  let base := basename p
  let r := base.reverse
  let afterRev := r.takeWhile (· ≠ '.')
  let restRev := r.dropWhile (· ≠ '.')
  match restRev with
  | [] => []
  | _ :: preRev =>
    if preRev.reverse.all (· = '.') then [] else '.' :: afterRev.reverse

/-! ### The pattern engine of `codebase_to_text.py` -/

/-- `CodebaseToText._normalize_path`: path relative to the base, with
`os.sep` (already `/` on POSIX) normalized to `/`. -/
def normalize_path (file_path base_path : Str) : Str :=
  pyReplace ['/'] ['/'] (relpath file_path base_path)

/-- `CodebaseToText._is_hidden_file`: some component of the normalized
path starts with `.` or with `__`. -/
def is_hidden_file (file_path : Str) : Bool :=
  (pySplit '/' (normpath file_path)).any fun c =>
    List.isPrefixOf ['.'] c || List.isPrefixOf ['_', '_'] c

/-- `CodebaseToText._dir_pattern_match`: glob-match the slash-stripped
directory pattern against every component of the normalized path. -/
def dir_pattern_match (dir_pattern normalized_path : Str) : Bool :=
  (pySplit '/' normalized_path).any fun part => fnmatch part dir_pattern

/-- `CodebaseToText._recursive_pattern_match`: simplify the pattern by
deleting `**/` and turning remaining `**` into `*`, then match the result
against the full normalized path and against every suffix of its
component list. -/
def recursive_pattern_match (pattern normalized_path : Str) : Bool :=
  let recursive_pattern := pyReplace (("**".toList)) (("*".toList)) (pyReplace (("**/".toList)) [] pattern)
  fnmatch normalized_path recursive_pattern ||
  (let path_parts := pySplit '/' normalized_path
   (List.range path_parts.length).any fun i =>
     fnmatch (List.intercalate ['/'] (path_parts.drop i)) recursive_pattern)

/-- `CodebaseToText._pattern_matches`: filename glob, full-path glob,
directory-style component match for `…/` patterns, and the recursive
`**` fallback. -/
def pattern_matches (pattern normalized_path filename : Str) : Bool :=
  fnmatch filename pattern ||
  fnmatch normalized_path pattern ||
  (endsWithChar pattern '/' &&
    dir_pattern_match (rstripSlashes pattern) normalized_path) ||
  (hasSubstr pattern (("**".toList)) && recursive_pattern_match pattern normalized_path)

/-- `CodebaseToText._should_exclude`: nothing is excluded while the
pattern set is empty; with the `exclude_hidden` switch on, hidden paths
are excluded next; otherwise any matching pattern excludes the path. -/
def should_exclude (exclude_patterns : List Str) (exclude_hidden : Bool)
    (file_path base_path : Str) : Bool :=
  if exclude_patterns.isEmpty then false
  else if exclude_hidden && is_hidden_file file_path then true
  else
    let normalized_path := normalize_path file_path base_path
    let filename := basename file_path
    exclude_patterns.any fun pattern =>
      pattern_matches pattern normalized_path filename

/-! ### Pattern sources (`_load_exclusion_patterns`) -/

/-- `CodebaseToText._add_cli_patterns`: each argument is split on commas,
each piece stripped, empty pieces dropped. -/
def add_cli_patterns (exclude_args : List Str) : List Str :=
  exclude_args.flatMap fun pattern =>
    ((pySplit ',' pattern).map pyStrip).filter (· ≠ [])

/-- `CodebaseToText._add_default_patterns`: the fixed default set. -/
def default_excludes : List Str :=
  [(".git/".toList), (".git/**".toList),
   ("__pycache__/".toList), ("**/__pycache__/**".toList),
   ("*.pyc".toList), ("*.pyo".toList), ("*.pyd".toList),
   (".venv/".toList), ("venv/".toList), ("env/".toList),
   ("node_modules/".toList),
   (".DS_Store".toList),
   ("*.log".toList), ("*.tmp".toList),
   (".pytest_cache/".toList),
   (".coverage".toList),
   ("build/".toList), ("dist/".toList),
   ("*.egg-info/".toList)]

/-- `CodebaseToText._add_file_patterns`: each line of an existing
`.exclude` file is stripped, and non-empty lines not starting with `#`
become patterns. `none` models an absent (or unreadable) file. -/
def add_file_patterns (exclude_file : Option (List Str)) : List Str :=
  match exclude_file with
  | none => []
  | some lines =>
    (lines.map pyStrip).filter fun line =>
      line ≠ [] ∧ ¬ List.isPrefixOf ['#'] line

/-- `CodebaseToText._load_exclusion_patterns`: union of CLI patterns, the
default set, and `.exclude`-file patterns. The Python attribute is a
`set`; it is modelled as the concatenated list, whose membership is what
matching consumes. -/
def load_exclusion_patterns (exclude_args : List Str)
    (exclude_file : Option (List Str)) : List Str :=
  add_cli_patterns exclude_args ++ default_excludes ++
    add_file_patterns exclude_file

/-! ### The file-system model and `os.walk`

A file system under the traversal root is a tree of named entries; files
carry their byte contents. `os.walk` enumerates directories depth-first
in child-list order, yielding each directory before its subdirectories;
the source's in-place mutation of the `dirs` list ("prune before
descending") appears below as the keep-predicate governing which child
directories the enumeration descends into. -/

inductive FSTree where
  | file (name : Str) (content : List Nat) : FSTree
  | dir  (name : Str) (children : List FSTree) : FSTree

/-- Name of an entry. -/
def FSTree.name : FSTree → Str
  | .file n _ => n
  | .dir n _ => n

/-- Names of the child directories of a directory, in listing order
(the `dirs` of `os.walk`). -/
def dirNames (children : List FSTree) : List Str :=
  children.filterMap fun c => match c with
    | .dir n _ => some n
    | .file _ _ => none

/-- Names of the child files of a directory, in listing order
(the `files` of `os.walk`). -/
def fileNames (children : List FSTree) : List Str :=
  children.filterMap fun c => match c with
    | .file n _ => some n
    | .dir _ _ => none

/-- Child files with their contents, in listing order. -/
def fileEntries (children : List FSTree) : List (Str × List Nat) :=
  children.filterMap fun c => match c with
    | .file n b => some (n, b)
    | .dir _ _ => none

/-- Names acceptable for directory entries: non-empty and free of the
path separator (true of any real directory listing). -/
def okName (n : Str) : Bool := !n.isEmpty && !n.contains '/'

/-- Names of all child entries, in listing order. -/
def childNames (children : List FSTree) : List Str :=
  children.map FSTree.name

/-- Pairwise distinctness of a list of names (entries of one directory
never share a name). -/
def distinctNames : List Str → Bool
  | [] => true
  | n :: rest => !(rest.contains n) && distinctNames rest

mutual
/-- Well-formed trees: every entry name is a plausible directory-entry
name (`okName`) and the entries of each directory have pairwise
distinct names (true of any real directory listing). -/
def wfTree : FSTree → Bool
  | .file n _ => okName n
  | .dir n children =>
    okName n && distinctNames (childNames children) && wfForest children
/-- Well-formedness of a list of sibling entries. -/
def wfForest : List FSTree → Bool
  | [] => true
  | t :: ts => wfTree t && wfForest ts
end

/-! ### Configuration and traversal state -/

/-- Constructor-time configuration of a `CodebaseToText` instance (the
pattern set assembled by `_load_exclusion_patterns` plus the flags). -/
structure Config where
  exclude_patterns : List Str
  exclude_hidden : Bool
  verbose : Bool
  output_type : Str

/-- Shorthand for `_should_exclude` under a configuration. -/
def Config.excl (cfg : Config) (folder path : Str) : Bool :=
  should_exclude cfg.exclude_patterns cfg.exclude_hidden path folder

/-- `CodebaseToText._skip_excluded_dir`: the directory's path string
starts with the path string of some recorded excluded directory. -/
def skip_excluded_dir (root : Str) (excluded_dirs : List Str) : Bool :=
  excluded_dirs.any fun excluded_dir => excluded_dir.isPrefixOf root

/-- Indentation depth used by `_generate_directory_entry`: occurrences of
`os.sep` left after deleting every occurrence of the folder path. -/
def dirLevel (folder root : Str) : Nat :=
  (pyReplace folder [] root).count '/'

/-- Four spaces per level. -/
def indentOf (n : Nat) : Str := List.replicate (4 * n) ' '

/-- State threaded through `_parse_folder`'s `os.walk` loop. `tree` is
the accumulated tree text; `dirsOut` and `filesOut` additionally record
which paths received a tree entry (observations used by the theorems,
not extra behaviour). -/
structure ParseSt where
  tree : Str
  dirsOut : List Str
  filesOut : List Str
  excluded_dirs : List Str
  excluded_files_count : Nat

/-- `CodebaseToText._generate_file_entries` for one directory: emit a
line per non-excluded file; for an excluded file, count it when verbose.
-/
def parse_files (cfg : Config) (folder path : Str) (files : List Str)
    (st : ParseSt) : ParseSt :=
  let subindent := indentOf (dirLevel folder path + 1)
  files.foldl (fun acc f =>
    let file_path := pathJoin path f
    if !(cfg.excl folder file_path) then
      { acc with tree := acc.tree ++ subindent ++ f ++ ['\n'],
                 filesOut := acc.filesOut ++ [file_path] }
    else
      { acc with excluded_files_count :=
          acc.excluded_files_count + (if cfg.verbose then 1 else 0) }) st

/-- Shift the exclusion counter of a tree-pass state. -/
def ParseSt.bump (st : ParseSt) (k : Nat) : ParseSt :=
  { st with excluded_files_count := st.excluded_files_count + k }

/-- One step of the `_generate_file_entries` loop. -/
def parse_files_step (cfg : Config) (folder path f : Str)
    (st : ParseSt) : ParseSt :=
  if !(cfg.excl folder (pathJoin path f)) then
    { st with
      tree := st.tree ++ indentOf (dirLevel folder path + 1) ++ f ++ ['\n'],
      filesOut := st.filesOut ++ [pathJoin path f] }
  else
    { st with excluded_files_count := st.excluded_files_count +
        (if cfg.verbose then 1 else 0) }

mutual
/-- Body of `_parse_folder`'s loop for one directory yielded by
`os.walk`, plus the descent into its children. Branches in source
order: `_handle_excluded_directory` (exclude, count, remember, and do
not prune the enumeration, which therefore still descends),
`_skip_excluded_dir` (silently skip, still descend), else
`_filter_excluded_directories` (prune the `dirs` list: pattern-excluded
children — counted when verbose — and, with `exclude_hidden`, hidden
children), emit the directory line and the file lines, and descend only
into the kept children. -/
def parse_visit (cfg : Config) (folder path : Str) (t : FSTree)
    (st : ParseSt) : ParseSt :=
  match t with
  | .file _ _ => st
  | .dir _ children =>
    if cfg.excl folder path then
      parse_kids cfg folder path children (fun _ => true)
        { st with excluded_dirs := path :: st.excluded_dirs,
                  excluded_files_count := st.excluded_files_count + 1 }
    else if skip_excluded_dir path st.excluded_dirs then
      parse_kids cfg folder path children (fun _ => true) st
    else
      let excludedKids :=
        (dirNames children).filter fun d => cfg.excl folder (pathJoin path d)
      let keep : Str → Bool := fun d =>
        !(cfg.excl folder (pathJoin path d)) &&
        (!cfg.exclude_hidden || !(is_hidden_file (pathJoin path d)))
      let st1 := { st with excluded_files_count := st.excluded_files_count +
        (if cfg.verbose then excludedKids.length else 0) }
      let st2 := { st1 with
        tree := st1.tree ++ indentOf (dirLevel folder path) ++
          basename path ++ ['/', '\n'],
        dirsOut := st1.dirsOut ++ [path] }
      let st3 := parse_files cfg folder path (fileNames children) st2
      parse_kids cfg folder path children keep st3
/-- Descend into the child directories (in listing order) that survived
the keep-predicate; files are not walk roots. -/
def parse_kids (cfg : Config) (folder path : Str) (ts : List FSTree)
    (keep : Str → Bool) (st : ParseSt) : ParseSt :=
  match ts with
  | [] => st
  | t :: rest =>
    let st' := match t with
      | .file _ _ => st
      | .dir n _ =>
        if keep n then parse_visit cfg folder (pathJoin path n) t st else st
    parse_kids cfg folder path rest keep st'
end

/-- `CodebaseToText._parse_folder`: walk the root and build the tree
text; `count0` is the instance's `excluded_files_count` on entry. -/
def parse_folder (cfg : Config) (folder : Str) (t : FSTree)
    (count0 : Nat) : ParseSt :=
  parse_visit cfg folder folder t
    { tree := [], dirsOut := [], filesOut := [],
      excluded_dirs := [], excluded_files_count := count0 }

/-! ### File contents (`_get_file_contents`) -/

/-- Continuation byte of a UTF-8 sequence. -/
def utf8Cont (c : Nat) : Bool := 0x80 ≤ c && c ≤ 0xBF

/-- Strict UTF-8 decoding of a byte sequence to code points (the
behaviour of Python `bytes.decode('utf-8')`, `none` on any error):
ASCII, two- to four-byte sequences with the standard range restrictions
(no overlong forms, no surrogates, nothing above U+10FFFF). -/
def utf8Decode : List Nat → Option (List Nat)
  | [] => some []
  | b :: rest =>
    if b < 0x80 then (utf8Decode rest).map (b :: ·)
    else if 0xC2 ≤ b ∧ b ≤ 0xDF then
      match rest with
      | c1 :: rest2 =>
        if utf8Cont c1 then
          (utf8Decode rest2).map (((b - 0xC0) * 0x40 + (c1 - 0x80)) :: ·)
        else none
      | [] => none
    else if 0xE0 ≤ b ∧ b ≤ 0xEF then
      match rest with
      | c1 :: c2 :: rest2 =>
        if (if b = 0xE0 then 0xA0 else 0x80) ≤ c1 ∧
           c1 ≤ (if b = 0xED then 0x9F else 0xBF) ∧ utf8Cont c2 then
          (utf8Decode rest2).map
            (((b - 0xE0) * 0x1000 + (c1 - 0x80) * 0x40 + (c2 - 0x80)) :: ·)
        else none
      | _ => none
    else if 0xF0 ≤ b ∧ b ≤ 0xF4 then
      match rest with
      | c1 :: c2 :: c3 :: rest2 =>
        if (if b = 0xF0 then 0x90 else 0x80) ≤ c1 ∧
           c1 ≤ (if b = 0xF4 then 0x8F else 0xBF) ∧
           utf8Cont c2 ∧ utf8Cont c3 then
          (utf8Decode rest2).map
            (((b - 0xF0) * 0x40000 + (c1 - 0x80) * 0x1000 +
              (c2 - 0x80) * 0x40 + (c3 - 0x80)) :: ·)
        else none
      | _ => none
    else none

/-- Latin-1 decoding: every byte is its own code point. -/
def latin1Decode (bytes : List Nat) : Str := bytes.map Char.ofNat

/-- `CodebaseToText._get_file_contents`: UTF-8 first; on a decode error,
fall back to Latin-1 and return a marker plus the first 500 characters.
(The `OSError` branches concern I/O failures outside this model.) -/
def get_file_contents (bytes : List Nat) : Str :=
  match utf8Decode bytes with
  | some cps => cps.map Char.ofNat
  | none =>
    ("[Binary/Non-UTF8 file - showing first 500 chars]\n".toList) ++
      (latin1Decode bytes).take 500 ++ ("...".toList)

/-! ### Content records (`_process_files` and friends) -/

/-- The fixed 50-character rule used by every delimiter in the output. -/
def delimiter : Str := List.replicate 50 '-'

/-- Python `ext or 'no extension'`. -/
def file_type_str (file_path : Str) : Str :=
  let ext := splitext_ext file_path
  if ext = [] then ("no extension".toList) else ext

/-- `CodebaseToText._is_image_file`: extension allow-list,
case-insensitive. -/
def is_image_file (file_path : Str) : Bool :=
  let ext := (splitext_ext file_path).map Char.toLower
  [(".png".toList), (".jpg".toList), (".jpeg".toList), (".gif".toList), (".bmp".toList), (".tiff".toList)].contains ext

/-- `CodebaseToText._format_file_content`: the record of a successfully
read file. -/
def format_file_content (file_path path : Str) (bytes : List Nat) : Str :=
  let file_content := get_file_contents bytes
  let rel_path := relpath file_path path
  ("\n\n".toList) ++ rel_path ++ ("\n".toList) ++
  ("File type: ".toList) ++ file_type_str file_path ++ ("\n".toList) ++
  file_content ++
  ("\n\n".toList) ++ delimiter ++ ("\nFile End\n".toList) ++ delimiter ++ ("\n".toList)

/-- Python `os.path.abspath`: normalized join onto the current working
directory. -/
def abspath (cwd p : Str) : Str := normpath (pathJoin cwd p)

/-- `CodebaseToText._process_single_file`: skip excluded files; in docx
mode an image file becomes an image-marker record; otherwise the file is
read and formatted. (The `except` fallback `_format_file_error` handles
I/O errors outside this model and is unreachable here: the Latin-1
fallback of `_get_file_contents` cannot fail.) -/
def process_single_file (cfg : Config) (folder cwd file_path : Str)
    (bytes : List Nat) : Option Str :=
  if cfg.excl folder file_path then none
  else if cfg.output_type = ("docx".toList) && is_image_file file_path then
    some (("\n\n(IMAGE_MARKER)".toList) ++ abspath cwd file_path ++
      ("(/IMAGE_MARKER)\n".toList))
  else
    some (format_file_content file_path folder bytes)

/-- State threaded through `_process_files`. `recs` and `filesOut`
record the emitted records and their file paths (observations used by
the theorems). -/
structure ProcSt where
  content : Str
  recs : List Str
  filesOut : List Str
  excluded_dirs : List Str

/-- The `for file in files` body of `_process_files` over one
directory's files. -/
def process_files_in (cfg : Config) (folder cwd path : Str)
    (files : List (Str × List Nat)) (st : ProcSt) : ProcSt :=
  files.foldl (fun acc fb =>
    let file_path := pathJoin path fb.1
    match process_single_file cfg folder cwd file_path fb.2 with
    | some record =>
      { acc with content := acc.content ++ record,
                 recs := acc.recs ++ [record],
                 filesOut := acc.filesOut ++ [file_path] }
    | none => acc) st

mutual
/-- Body of `_process_files`'s loop for one directory yielded by
`os.walk`: `_handle_directory_exclusion` (remember and skip, without
pruning the enumeration), `_skip_excluded_dir`, else
`_filter_directories_for_processing` (prune pattern-excluded children)
and process the directory's files. -/
def process_visit (cfg : Config) (folder cwd path : Str) (t : FSTree)
    (st : ProcSt) : ProcSt :=
  match t with
  | .file _ _ => st
  | .dir _ children =>
    if cfg.excl folder path then
      process_kids cfg folder cwd path children (fun _ => true)
        { st with excluded_dirs := path :: st.excluded_dirs }
    else if skip_excluded_dir path st.excluded_dirs then
      process_kids cfg folder cwd path children (fun _ => true) st
    else
      let keep : Str → Bool := fun d => !(cfg.excl folder (pathJoin path d))
      let st1 := process_files_in cfg folder cwd path
        (fileEntries children) st
      process_kids cfg folder cwd path children keep st1
/-- Descend into the child directories that survived the
keep-predicate. -/
def process_kids (cfg : Config) (folder cwd path : Str) (ts : List FSTree)
    (keep : Str → Bool) (st : ProcSt) : ProcSt :=
  match ts with
  | [] => st
  | t :: rest =>
    let st' := match t with
      | .file _ _ => st
      | .dir n _ =>
        if keep n then process_visit cfg folder cwd (pathJoin path n) t st
        else st
    process_kids cfg folder cwd path rest keep st'
end

/-- `CodebaseToText._process_files` over the traversal root. -/
def process_files (cfg : Config) (folder cwd : Str) (t : FSTree) : ProcSt :=
  process_visit cfg folder cwd folder t
    { content := [], recs := [], filesOut := [], excluded_dirs := [] }

/-! ### Artifact assembly (`get_text`, `get_file`) -/

/-- `CodebaseToText.get_text` for a local input: run the tree pass and
the content pass over the root and assemble the final text. `count0` is
the instance's `excluded_files_count` when the call starts; the second
component is its value when the call returns. (For a GitHub URL the
source first clones into a temporary folder and then runs the same two
passes over it; acquisition of the root is outside this model.) -/
def get_text (cfg : Config) (folder cwd : Str) (t : FSTree)
    (count0 : Nat) : Str × Nat :=
  let ps := parse_folder cfg folder t count0
  let pr := process_files cfg folder cwd t
  (("Folder Structure".toList) ++ ("\n".toList) ++ delimiter ++ ("\n".toList) ++ ps.tree ++
    ("\n\n".toList) ++ ("File Contents".toList) ++ ("\n".toList) ++ delimiter ++ ("\n".toList) ++
    pr.content,
   ps.excluded_files_count)

/-- Observable steps of `CodebaseToText.get_file`, in execution order. -/
inductive FileEvent where
  | ranGetText (text : Str)
  | wroteTxt (text : Str)
  | wroteDocx (text : Str)
  | raisedInvalidType
deriving DecidableEq

/-- `CodebaseToText.get_file`: `get_text` runs first, unconditionally;
then the text is written as txt, written as docx (with image-marker
splicing done by the document writer), or — for any other output type —
`ValueError("Invalid output type. Supported types: txt, docx")` is
raised and nothing is written. -/
def get_file (cfg : Config) (folder cwd : Str) (t : FSTree)
    (count0 : Nat) : List FileEvent :=
  let r := get_text cfg folder cwd t count0
  FileEvent.ranGetText r.1 ::
    (if cfg.output_type = ("txt".toList) then [FileEvent.wroteTxt r.1]
     else if cfg.output_type = ("docx".toList) then [FileEvent.wroteDocx r.1]
     else [FileEvent.raisedInvalidType])

/-- Whether an event writes to the output path. -/
def FileEvent.isWrite : FileEvent → Bool
  | .wroteTxt _ => true
  | .wroteDocx _ => true
  | _ => false


/-! ### The legacy `cli.py` module: binary-file handling -/

/-- `cli.CodebaseToText._is_binary_file`: read the first 1024 bytes and
look for a null byte. (The `except` branch concerns unreadable files,
outside this model.) -/
def cli_is_binary_file (bytes : List Nat) : Bool :=
  (bytes.take 1024).contains 0

/-- Fuel-driven worker for `utf8DecodeReplace`; every step consumes at
least one byte, so fuel starting at the byte count never runs out. -/
def utf8DecodeReplaceF : Nat → List Nat → List Nat
  | _, [] => []
  | 0, _ :: _ => []
  | fuel + 1, b :: rest =>
    if b < 0x80 then b :: utf8DecodeReplaceF fuel rest
    else if 0xC2 ≤ b ∧ b ≤ 0xDF then
      match rest with
      | c1 :: rest2 =>
        if utf8Cont c1 then
          ((b - 0xC0) * 0x40 + (c1 - 0x80)) :: utf8DecodeReplaceF fuel rest2
        else 0xFFFD :: utf8DecodeReplaceF fuel rest
      | [] => [0xFFFD]
    else if 0xE0 ≤ b ∧ b ≤ 0xEF then
      match rest with
      | c1 :: rest2 =>
        if (if b = 0xE0 then 0xA0 else 0x80) ≤ c1 ∧
           c1 ≤ (if b = 0xED then 0x9F else 0xBF) then
          match rest2 with
          | c2 :: rest3 =>
            if utf8Cont c2 then
              ((b - 0xE0) * 0x1000 + (c1 - 0x80) * 0x40 + (c2 - 0x80)) ::
                utf8DecodeReplaceF fuel rest3
            else 0xFFFD :: utf8DecodeReplaceF fuel rest2
          | [] => [0xFFFD]
        else 0xFFFD :: utf8DecodeReplaceF fuel rest
      | [] => [0xFFFD]
    else if 0xF0 ≤ b ∧ b ≤ 0xF4 then
      match rest with
      | c1 :: rest2 =>
        if (if b = 0xF0 then 0x90 else 0x80) ≤ c1 ∧
           c1 ≤ (if b = 0xF4 then 0x8F else 0xBF) then
          match rest2 with
          | c2 :: rest3 =>
            if utf8Cont c2 then
              match rest3 with
              | c3 :: rest4 =>
                if utf8Cont c3 then
                  ((b - 0xF0) * 0x40000 + (c1 - 0x80) * 0x1000 +
                    (c2 - 0x80) * 0x40 + (c3 - 0x80)) ::
                    utf8DecodeReplaceF fuel rest4
                else 0xFFFD :: utf8DecodeReplaceF fuel rest3
              | [] => [0xFFFD]
            else 0xFFFD :: utf8DecodeReplaceF fuel rest2
          | [] => [0xFFFD]
        else 0xFFFD :: utf8DecodeReplaceF fuel rest
      | [] => [0xFFFD]
    else 0xFFFD :: utf8DecodeReplaceF fuel rest

/-- UTF-8 decoding with `errors='replace'`: each maximal ill-formed
subpart becomes one U+FFFD replacement character. -/
def utf8DecodeReplace (bytes : List Nat) : List Nat :=
  utf8DecodeReplaceF bytes.length bytes

/-- `cli.CodebaseToText._get_file_contents`: UTF-8 with
`errors='replace'`. -/
def cli_get_file_contents (bytes : List Nat) : Str :=
  (utf8DecodeReplace bytes).map Char.ofNat

/-- Per-file record built by the loop body of
`cli.CodebaseToText._process_files` (after its hidden-file check): a
binary file gets a fixed placeholder record, a text file gets its
decoded contents. `cli.py` uses the file's full path and the bare
`splitext` extension in both record forms. -/
def cli_process_file_record (file_path : Str) (bytes : List Nat) : Str :=
  if cli_is_binary_file bytes then
    ("\n\n".toList) ++ file_path ++ ("\n".toList) ++
    ("File type: ".toList) ++ splitext_ext file_path ++ ("\n".toList) ++
    ("Binary file. Content not included.\n".toList) ++
    ("\n\n".toList) ++ delimiter ++ ("\nFile End\n".toList) ++ delimiter ++ ("\n".toList)
  else
    ("\n\n".toList) ++ file_path ++ ("\n".toList) ++
    ("File type: ".toList) ++ splitext_ext file_path ++ ("\n".toList) ++
    cli_get_file_contents bytes ++
    ("\n\n".toList) ++ delimiter ++ ("\nFile End\n".toList) ++ delimiter ++ ("\n".toList)

/-! ### Scenario data

Concrete configurations and trees used by scenario checks and witnesses.
-/

/-- Tree of the spec's Scenario C: a root containing `venv/lib/file`. -/
def sampleC : FSTree :=
  .dir (("proj".toList)) [.dir (("venv".toList)) [.dir (("lib".toList)) [.file (("file".toList)) [104, 105]]]]

/-- Pattern set of Scenario C (`venv/` only), txt mode, no flags. -/
def cfgC : Config := ⟨[("venv/".toList)], false, false, ("txt".toList)⟩

/-- Tree for the pruning-prefix behaviour: an excluded root `junk`
containing a pattern-matched `build` and a sibling `build2` that matches
no pattern. -/
def sampleJ : FSTree :=
  .dir (("junk".toList)) [.dir (("build".toList)) [.file (("x.c".toList)) []],
                   .dir (("build2".toList)) [.file (("y.c".toList)) []]]

/-- Patterns for the pruning-prefix scenario. -/
def cfgJ : Config := ⟨[("junk".toList), ("build".toList)], false, false, ("txt".toList)⟩

/-- Tree with a single excluded log file. -/
def sampleL : FSTree := .dir (("r".toList)) [.file (("app.log".toList)) [97]]

/-- Configuration with `*.log` excluded, verbose on (the per-file
exclusion counter increments are verbose-gated in the source). -/
def cfgL : Config := ⟨[("*.log".toList)], false, true, ("txt".toList)⟩

/-- Tree of the spec's Scenario A: a root containing `main.py`. -/
def sampleA : FSTree :=
  .dir (("base".toList)) [.file (("main.py".toList)) ((("print hi".toList)).map Char.toNat)]

/-- Configuration with an invalid output type. -/
def cfgX : Config := ⟨[("*.log".toList)], false, false, ("xyz".toList)⟩

/-! ### Definitions modelled from the spec's words

These follow the specification text rather than the source, for
comparison against the source-derived definitions. -/

/-- Modelled from the spec: the simplified glob of a recursive pattern,
"derive a simplified glob by collapsing `**/` and `**` into a single
wildcard" — each of `**/` and `**` becomes `*`. (The source instead
deletes `**/` outright and only turns the remaining `**` into `*`.) -/
def specSimplifiedGlob (pattern : Str) : Str :=
  pyReplace (("**".toList)) (("*".toList)) (pyReplace (("**/".toList)) (("*".toList)) pattern)

/-- Simplified glob the source actually computes in
`_recursive_pattern_match`: `pattern.replace('**/', '').replace('**', '*')`. -/
def codeSimplifiedGlob (pattern : Str) : Str :=
  pyReplace (("**".toList)) (("*".toList)) (pyReplace (("**/".toList)) [] pattern)

/-- Modelled from the spec: the claimed artifact layout
`"Folder Structure\n" + separator + tree + "\n\nFile Contents\n" +
separator + records` with the separator being the bare 50-character
rule. (The source emits a newline after each separator.) -/
def claimArtifact (tree records : Str) : Str :=
  ("Folder Structure\n".toList) ++ delimiter ++ tree ++
    ("\n\nFile Contents\n".toList) ++ delimiter ++ records

/-- Modelled from the spec: the claimed per-file record
`"\n\n<relative-path>\n File type: <ext>\n<content>\n\n<separator>\nFile
End\n<separator>\n"` (note the space before `File type:`, absent from
the source). -/
def claimRecord (rel ext content : Str) : Str :=
  ("\n\n".toList) ++ rel ++ ("\n File type: ".toList) ++ ext ++ ("\n".toList) ++ content ++
    ("\n\n".toList) ++ delimiter ++ ("\nFile End\n".toList) ++ delimiter ++ ("\n".toList)

/-- Modelled from the spec: the claimed hidden test on the raw path,
"split the path into its path-separator components; the path is hidden
if ANY component starts with `.` or with `__`" (no normalization). -/
def specRawHidden (file_path : Str) : Bool :=
  (pySplit '/' file_path).any fun c =>
    List.isPrefixOf ['.'] c || List.isPrefixOf ['_', '_'] c

/-! ### Auxiliary notions used by the statements -/

/-- Paths acceptable as traversal roots: non-empty without a trailing
separator (the form of any real directory argument). -/
def okPath (p : Str) : Prop := p ≠ [] ∧ p.getLast? ≠ some '/'

/-- A tail produced by descending from a directory path: either nothing
or a `/`-led continuation. -/
def slashTail (r : Str) : Prop := r = [] ∨ r.head? = some '/'

/-- The "cone" of a directory path: the path itself and everything that
extends it past a separator. A path is a descendant of `q` exactly when
it lies in `q`'s cone. -/
def inCone (q p : Str) : Prop := ∃ r, slashTail r ∧ p = q ++ r

mutual
/-- All directory paths of a subtree rooted at `path` (the walk roots
`os.walk` would visit), in visit order. -/
def dirPaths (path : Str) : FSTree → List Str
  | .file _ _ => []
  | .dir _ children => path :: dirPathsL path children
/-- Directory paths contributed by a list of sibling entries. -/
def dirPathsL (path : Str) : List FSTree → List Str
  | [] => []
  | c :: rest => dirPaths (pathJoin path c.name) c ++ dirPathsL path rest
end

/-! ### Path and cone lemmas -/

theorem okName_ne_nil {n : Str} (h : okName n = true) : n ≠ [] := by
  simp only [okName, Bool.and_eq_true, Bool.not_eq_true'] at h
  simpa using h.1

theorem okName_no_sep {n : Str} (h : okName n = true) : '/' ∉ n := by
  simp only [okName, Bool.and_eq_true, Bool.not_eq_true'] at h
  simpa using h.2

theorem pathJoin_eq {path n : Str} (hp : okPath path) (hn : okName n = true) :
    pathJoin path n = path ++ '/' :: n := by
  have hsep := okName_no_sep hn
  have hhead : n.head? ≠ some '/' := by
    cases n with
    | nil => simp
    | cons c rest =>
      simp only [ne_eq, List.head?_cons, Option.some.injEq]
      intro hc
      exact hsep (by simp [hc])
  unfold pathJoin
  rw [if_neg hhead, if_neg (by push_neg; exact ⟨hp.1, hp.2⟩)]

theorem okPath_pathJoin {path n : Str} (hp : okPath path) (hn : okName n = true) :
    okPath (pathJoin path n) := by
  rw [pathJoin_eq hp hn]
  obtain ⟨m, ms, rfl⟩ : ∃ m ms, n = m :: ms := by
    cases n with
    | nil => exact absurd rfl (okName_ne_nil hn)
    | cons m ms => exact ⟨m, ms, rfl⟩
  refine ⟨by simp, ?_⟩
  rw [List.getLast?_append, List.getLast?_cons_cons]
  cases hgl : (m :: ms).getLast? with
  | none => simp at hgl
  | some x =>
    have hx : x ∈ m :: ms := by
      obtain ⟨h, rfl⟩ := List.mem_getLast?_eq_getLast (l := m :: ms) (x := x)
        (by simp [hgl])
      exact List.getLast_mem h
    simp only [Option.or_some]
    intro hcontra
    have : x = '/' := by injection hcontra
    exact okName_no_sep hn (this ▸ hx)

theorem slashTail_append {r1 r2 : Str} (h1 : slashTail r1) (h2 : slashTail r2) :
    slashTail (r1 ++ r2) := by
  rcases h1 with h1 | h1
  · subst h1; simpa using h2
  · cases r1 with
    | nil => simp at h1
    | cons c cs =>
      right
      simp only [List.head?_cons, Option.some.injEq] at h1 ⊢
      simpa using h1

theorem inCone_refl (p : Str) : inCone p p := ⟨[], Or.inl rfl, by simp⟩

theorem inCone_trans {a b c : Str} (h1 : inCone a b) (h2 : inCone b c) :
    inCone a c := by
  obtain ⟨r1, hr1, rfl⟩ := h1
  obtain ⟨r2, hr2, rfl⟩ := h2
  exact ⟨r1 ++ r2, slashTail_append hr1 hr2, by simp⟩

theorem inCone_child {path n : Str} (hp : okPath path) (hn : okName n = true) :
    inCone path (pathJoin path n) :=
  ⟨'/' :: n, Or.inr rfl, by rw [pathJoin_eq hp hn]⟩

theorem inCone_length {q p : Str} (h : inCone q p) : q.length ≤ p.length := by
  obtain ⟨r, _, rfl⟩ := h
  simp

/-- Two sibling-style decompositions with equal results have equal
leading names: a separator-free name is determined by any `name ++ tail`
form with a `/`-led (or empty) tail. -/
theorem name_append_inj {a : Str} (ha1 : a ≠ []) (ha2 : '/' ∉ a) :
    ∀ {b r1 r2 : Str}, b ≠ [] → '/' ∉ b → slashTail r1 → slashTail r2 →
      a ++ r1 = b ++ r2 → a = b := by
  induction a with
  | nil => exact absurd rfl ha1
  | cons x a' ih =>
    intro b r1 r2 hb1 hb2 h1 h2 h
    match b, hb1 with
    | y :: b', _ =>
      simp only [List.cons_append, List.cons.injEq] at h
      obtain ⟨hxy, h'⟩ := h
      subst hxy
      cases ha' : a' with
      | nil =>
        subst ha'
        cases hb' : b' with
        | nil => rfl
        | cons z b'' =>
          subst hb'
          simp only [List.nil_append] at h'
          rcases h1 with h1 | h1
          · subst h1; exact ((List.cons_ne_nil _ _) h'.symm).elim
          · rw [h'] at h1
            have hz : z = '/' := by simpa using h1
            exact absurd (show ('/' : Char) ∈ x :: z :: b'' by simp [hz]) hb2
      | cons w a'' =>
        subst ha'
        cases hb' : b' with
        | nil =>
          subst hb'
          simp only [List.nil_append] at h'
          rcases h2 with h2 | h2
          · subst h2; exact ((List.cons_ne_nil _ _) h').elim
          · rw [← h'] at h2
            have hw : w = '/' := by simpa using h2
            exact absurd (show ('/' : Char) ∈ x :: w :: a'' by simp [hw]) ha2
        | cons z b'' =>
          subst hb'
          have ha2' : '/' ∉ w :: a'' := fun hmem => ha2 (by simp [hmem])
          have hb2' : '/' ∉ z :: b'' := fun hmem => hb2 (by simp [hmem])
          have := ih (by simp) ha2' (by simp) hb2' h1 h2 h'
          rw [this]

/-- Paths inside the cones of two distinct sibling names never
coincide. -/
theorem sibling_cones_disjoint {base a b p : Str} (hbase : okPath base)
    (ha : okName a = true) (hb : okName b = true) (hab : a ≠ b)
    (hpa : inCone (pathJoin base a) p) (hpb : inCone (pathJoin base b) p) :
    False := by
  obtain ⟨r1, hr1, hp1⟩ := hpa
  obtain ⟨r2, hr2, hp2⟩ := hpb
  rw [pathJoin_eq hbase ha] at hp1
  rw [pathJoin_eq hbase hb] at hp2
  rw [hp1] at hp2
  simp only [List.append_assoc, List.append_cancel_left_eq,
    List.cons_append, List.cons.injEq, true_and] at hp2
  exact hab (name_append_inj (okName_ne_nil ha) (okName_no_sep ha)
    (okName_ne_nil hb) (okName_no_sep hb) hr1 hr2 hp2)

/-! ### Well-formedness helpers -/

theorem wfForest_mem {ts : List FSTree} (h : wfForest ts = true) :
    ∀ {c}, c ∈ ts → wfTree c = true := by
  induction ts with
  | nil => intro c hc; simp at hc
  | cons t rest ih =>
    rw [wfForest] at h
    simp only [Bool.and_eq_true] at h
    intro c hc
    rcases List.mem_cons.mp hc with rfl | hc
    · exact h.1
    · exact ih h.2 hc

theorem wfTree_dir {n : Str} {children : List FSTree}
    (h : wfTree (.dir n children) = true) :
    okName n = true ∧ distinctNames (childNames children) = true ∧
      wfForest children = true := by
  rw [wfTree] at h
  simp only [Bool.and_eq_true] at h
  exact ⟨h.1.1, h.1.2, h.2⟩

theorem okName_of_wfTree : ∀ {c : FSTree}, wfTree c = true → okName c.name = true := by
  intro c hc
  cases c with
  | file n b => rw [wfTree] at hc; exact hc
  | dir n children => exact (wfTree_dir hc).1

theorem okName_of_mem_fileNames {children : List FSTree}
    (h : wfForest children = true) :
    ∀ {f}, f ∈ fileNames children → okName f = true := by
  induction children with
  | nil => intro f hf; simp [fileNames] at hf
  | cons c rest ih =>
    rw [wfForest] at h
    simp only [Bool.and_eq_true] at h
    intro f hf
    cases c with
    | file n b =>
      simp only [fileNames, List.filterMap_cons] at hf
      rcases List.mem_cons.mp hf with rfl | hf
      · rw [wfTree] at h; exact h.1
      · exact ih h.2 hf
    | dir n cs =>
      simp only [fileNames, List.filterMap_cons] at hf
      exact ih h.2 hf

theorem distinct_mem_name_eq {ts : List FSTree}
    (h : distinctNames (childNames ts) = true) :
    ∀ {c c'}, c ∈ ts → c' ∈ ts → c.name = c'.name → c = c' := by
  induction ts with
  | nil => intro c c' hc; simp at hc
  | cons t rest ih =>
    rw [childNames, List.map_cons, distinctNames] at h
    simp only [Bool.and_eq_true, Bool.not_eq_true'] at h
    have hnotin : t.name ∉ List.map FSTree.name rest := by simpa using h.1
    intro c c' hc hc' hname
    rcases List.mem_cons.mp hc with h1 | h1
    · rcases List.mem_cons.mp hc' with h2 | h2
      · rw [h1, h2]
      · subst h1
        refine absurd ?_ hnotin
        rw [hname]
        exact List.mem_map_of_mem FSTree.name h2
    · rcases List.mem_cons.mp hc' with h2 | h2
      · subst h2
        refine absurd ?_ hnotin
        rw [← hname]
        exact List.mem_map_of_mem FSTree.name h1
      · exact ih (by simpa [childNames] using h.2) h1 h2 hname

theorem dirPathsL_mem {path : Str} {ts : List FSTree} :
    ∀ {q}, q ∈ dirPathsL path ts →
      ∃ c ∈ ts, q ∈ dirPaths (pathJoin path c.name) c := by
  induction ts with
  | nil => intro q hq; simp [dirPathsL] at hq
  | cons c rest ih =>
    intro q hq
    rw [dirPathsL] at hq
    rcases List.mem_append.mp hq with hq | hq
    · exact ⟨c, List.mem_cons_self c rest, hq⟩
    · obtain ⟨c', hc', hq'⟩ := ih hq
      exact ⟨c', List.mem_cons_of_mem c hc', hq'⟩

mutual
theorem dirPaths_inCone {t : FSTree} {path : Str} (hwf : wfTree t = true)
    (hp : okPath path) : ∀ {q}, q ∈ dirPaths path t → inCone path q := by
  cases t with
  | file n b => intro q hq; simp [dirPaths] at hq
  | dir n children =>
    intro q hq
    rw [dirPaths] at hq
    rcases List.mem_cons.mp hq with rfl | hq
    · exact inCone_refl q
    · exact dirPathsL_inCone (wfTree_dir hwf).2.2 hp hq
theorem dirPathsL_inCone {ts : List FSTree} {path : Str}
    (hwf : wfForest ts = true) (hp : okPath path) :
    ∀ {q}, q ∈ dirPathsL path ts → inCone path q := by
  cases ts with
  | nil => intro q hq; simp [dirPathsL] at hq
  | cons c rest =>
    intro q hq
    rw [wfForest] at hwf
    simp only [Bool.and_eq_true] at hwf
    rw [dirPathsL] at hq
    rcases List.mem_append.mp hq with hq | hq
    · have hname := okName_of_wfTree hwf.1
      exact inCone_trans (inCone_child hp hname)
        (dirPaths_inCone hwf.1 (okPath_pathJoin hp hname) hq)
    · exact dirPathsL_inCone hwf.2 hp hq
end

/-! ### Effects of the per-directory file loops -/

theorem parse_files_dirsOut (cfg : Config) (folder path : Str)
    (files : List Str) (st : ParseSt) :
    (parse_files cfg folder path files st).dirsOut = st.dirsOut := by
  rw [parse_files]
  induction files generalizing st with
  | nil => rfl
  | cons f rest ih =>
    rw [List.foldl_cons]
    rw [ih]
    by_cases h : cfg.excl folder (pathJoin path f) <;> simp [h]

theorem parse_files_excluded_dirs (cfg : Config) (folder path : Str)
    (files : List Str) (st : ParseSt) :
    (parse_files cfg folder path files st).excluded_dirs = st.excluded_dirs := by
  rw [parse_files]
  induction files generalizing st with
  | nil => rfl
  | cons f rest ih =>
    rw [List.foldl_cons, ih]
    by_cases h : cfg.excl folder (pathJoin path f) <;> simp [h]

theorem parse_files_filesOut_mem (cfg : Config) (folder path : Str)
    (files : List Str) (st : ParseSt) :
    ∀ p, p ∈ (parse_files cfg folder path files st).filesOut →
      p ∈ st.filesOut ∨ ∃ f ∈ files, p = pathJoin path f ∧
        cfg.excl folder (pathJoin path f) = false := by
  rw [parse_files]
  induction files generalizing st with
  | nil => intro p hp; exact Or.inl hp
  | cons f rest ih =>
    intro p hp
    rw [List.foldl_cons] at hp
    by_cases h : cfg.excl folder (pathJoin path f)
    · simp only [h, Bool.not_true, Bool.false_eq_true, if_neg, ite_false] at hp
      rcases ih _ p hp with hin | ⟨g, hg, hpg⟩
      · exact Or.inl hin
      · exact Or.inr ⟨g, List.mem_cons_of_mem f hg, hpg⟩
    · simp only [h, Bool.not_false, if_pos, ite_true] at hp
      rcases ih _ p hp with hin | ⟨g, hg, hpg⟩
      · rcases List.mem_append.mp hin with hin | hin
        · exact Or.inl hin
        · refine Or.inr ⟨f, List.mem_cons_self f rest, ?_, by simpa using h⟩
          simpa using hin
      · exact Or.inr ⟨g, List.mem_cons_of_mem f hg, hpg⟩

theorem process_files_in_excluded_dirs (cfg : Config) (folder cwd path : Str)
    (files : List (Str × List Nat)) (st : ProcSt) :
    (process_files_in cfg folder cwd path files st).excluded_dirs =
      st.excluded_dirs := by
  rw [process_files_in]
  induction files generalizing st with
  | nil => rfl
  | cons fb rest ih =>
    rw [List.foldl_cons, ih]
    cases hps : process_single_file cfg folder cwd (pathJoin path fb.1) fb.2 <;>
      simp [hps]

theorem process_single_file_not_excl {cfg : Config} {folder cwd fp : Str}
    {bytes : List Nat} {r : Str}
    (h : process_single_file cfg folder cwd fp bytes = some r) :
    cfg.excl folder fp = false := by
  rw [process_single_file] at h
  by_cases hx : cfg.excl folder fp
  · rw [if_pos hx] at h; cases h
  · simpa using hx

theorem process_files_in_filesOut_mem (cfg : Config) (folder cwd path : Str)
    (files : List (Str × List Nat)) (st : ProcSt) :
    ∀ p, p ∈ (process_files_in cfg folder cwd path files st).filesOut →
      p ∈ st.filesOut ∨ ∃ fb ∈ files, p = pathJoin path fb.1 ∧
        cfg.excl folder (pathJoin path fb.1) = false := by
  rw [process_files_in]
  induction files generalizing st with
  | nil => intro p hp; exact Or.inl hp
  | cons fb rest ih =>
    intro p hp
    rw [List.foldl_cons] at hp
    cases hps : process_single_file cfg folder cwd (pathJoin path fb.1) fb.2 with
    | none =>
      simp only [hps] at hp
      rcases ih _ p hp with hin | ⟨g, hg, hpg⟩
      · exact Or.inl hin
      · exact Or.inr ⟨g, List.mem_cons_of_mem fb hg, hpg⟩
    | some r =>
      simp only [hps] at hp
      rcases ih _ p hp with hin | ⟨g, hg, hpg⟩
      · rcases List.mem_append.mp hin with hin | hin
        · exact Or.inl hin
        · refine Or.inr ⟨fb, List.mem_cons_self fb rest, ?_,
            process_single_file_not_excl hps⟩
          simpa using hin
      · exact Or.inr ⟨g, List.mem_cons_of_mem fb hg, hpg⟩

/-! ### Invariants of the tree pass (`_parse_folder`) -/

mutual
theorem parse_visit_mono (cfg : Config) (folder : Str) (t : FSTree) :
    ∀ (path : Str) (st : ParseSt), ∀ e ∈ st.excluded_dirs,
    e ∈ (parse_visit cfg folder path t st).excluded_dirs := by
  cases t with
  | file n b => intro path st e he; rw [parse_visit]; exact he
  | dir n children =>
    intro path st e he
    rw [parse_visit]
    by_cases h1 : cfg.excl folder path = true
    · rw [if_pos h1]
      exact parse_kids_mono cfg folder children path _ _ e
        (List.mem_cons_of_mem path he)
    · rw [if_neg h1]
      by_cases h2 : skip_excluded_dir path st.excluded_dirs = true
      · rw [if_pos h2]
        exact parse_kids_mono cfg folder children path _ _ e he
      · rw [if_neg h2]
        apply parse_kids_mono
        rw [parse_files_excluded_dirs]
        exact he
theorem parse_kids_mono (cfg : Config) (folder : Str) (ts : List FSTree) :
    ∀ (path : Str) (keep : Str → Bool) (st : ParseSt), ∀ e ∈ st.excluded_dirs,
    e ∈ (parse_kids cfg folder path ts keep st).excluded_dirs := by
  cases ts with
  | nil => intro path keep st e he; rw [parse_kids]; exact he
  | cons t rest =>
    intro path keep st e he
    simp only [parse_kids]
    apply parse_kids_mono
    cases t with
    | file n b => exact he
    | dir n cs =>
      dsimp only
      by_cases hk : keep n = true
      · rw [if_pos hk]
        exact parse_visit_mono cfg folder (.dir n cs) (pathJoin path n) st e he
      · rw [if_neg hk]; exact he
end

theorem isPrefixOf_pathJoin {e path n : Str} (hn : okName n = true)
    (h : e.isPrefixOf path = true) : e.isPrefixOf (pathJoin path n) = true := by
  have hhead : n.head? ≠ some '/' := by
    cases n with
    | nil => simp
    | cons c rest =>
      simp only [ne_eq, List.head?_cons, Option.some.injEq]
      intro hc
      exact okName_no_sep hn (by simp [hc])
  rw [ List.isPrefixOf_iff_prefix] at h ⊢
  unfold pathJoin
  rw [if_neg hhead]
  by_cases hr : path = [] ∨ path.getLast? = some '/'
  · rw [if_pos hr]; exact h.trans (List.prefix_append path n)
  · rw [if_neg hr]; exact h.trans (List.prefix_append path ('/' :: n))

theorem skip_excluded_dir_iff {root : Str} {dirs : List Str} :
    skip_excluded_dir root dirs = true ↔
      ∃ e ∈ dirs, e.isPrefixOf root = true := by
  simp [skip_excluded_dir, List.any_eq_true]

mutual
theorem parse_visit_noemit (cfg : Config) (folder : Str) (t : FSTree) :
    ∀ (path : Str) (st : ParseSt), wfTree t = true →
    (∃ e ∈ st.excluded_dirs, e.isPrefixOf path = true) →
    (parse_visit cfg folder path t st).dirsOut = st.dirsOut ∧
    (parse_visit cfg folder path t st).filesOut = st.filesOut ∧
    (parse_visit cfg folder path t st).tree = st.tree := by
  cases t with
  | file n b => intro path st _ _; rw [parse_visit]; exact ⟨rfl, rfl, rfl⟩
  | dir n children =>
    intro path st hwf hex
    rw [parse_visit]
    by_cases h1 : cfg.excl folder path = true
    · rw [if_pos h1]
      apply parse_kids_noemit cfg folder children path _ _ (wfTree_dir hwf).2.2
      obtain ⟨e, he, hpre⟩ := hex
      exact ⟨e, List.mem_cons_of_mem path he, hpre⟩
    · rw [if_neg h1]
      rw [if_pos (skip_excluded_dir_iff.mpr hex)]
      exact parse_kids_noemit cfg folder children path _ _
        (wfTree_dir hwf).2.2 hex
theorem parse_kids_noemit (cfg : Config) (folder : Str) (ts : List FSTree) :
    ∀ (path : Str) (keep : Str → Bool) (st : ParseSt), wfForest ts = true →
    (∃ e ∈ st.excluded_dirs, e.isPrefixOf path = true) →
    (parse_kids cfg folder path ts keep st).dirsOut = st.dirsOut ∧
    (parse_kids cfg folder path ts keep st).filesOut = st.filesOut ∧
    (parse_kids cfg folder path ts keep st).tree = st.tree := by
  cases ts with
  | nil => intro path keep st _ _; rw [parse_kids]; exact ⟨rfl, rfl, rfl⟩
  | cons t rest =>
    intro path keep st hwf hex
    rw [wfForest] at hwf
    simp only [Bool.and_eq_true] at hwf
    simp only [parse_kids]
    cases t with
    | file n b =>
      exact parse_kids_noemit cfg folder rest path keep st hwf.2 hex
    | dir n cs =>
      dsimp only
      by_cases hk : keep n = true
      · rw [if_pos hk]
        obtain ⟨e, he, hpre⟩ := hex
        have hex' : ∃ e ∈ st.excluded_dirs,
            e.isPrefixOf (pathJoin path n) = true :=
          ⟨e, he, isPrefixOf_pathJoin (okName_of_wfTree hwf.1) hpre⟩
        have hvisit := parse_visit_noemit cfg folder (.dir n cs)
          (pathJoin path n) st hwf.1 hex'
        have hexrest : ∃ e ∈ (parse_visit cfg folder (pathJoin path n)
            (.dir n cs) st).excluded_dirs, e.isPrefixOf path = true :=
          ⟨e, parse_visit_mono cfg folder (.dir n cs) (pathJoin path n) st e he,
            hpre⟩
        have hrest := parse_kids_noemit cfg folder rest path keep _ hwf.2 hexrest
        refine ⟨?_, ?_, ?_⟩
        · rw [hrest.1, hvisit.1]
        · rw [hrest.2.1, hvisit.2.1]
        · rw [hrest.2.2, hvisit.2.2]
      · rw [if_neg hk]
        exact parse_kids_noemit cfg folder rest path keep st hwf.2 hex
end

mutual
theorem parse_visit_notexcl (cfg : Config) (folder : Str) (t : FSTree) :
    ∀ (path : Str) (st : ParseSt) (p : Str),
    (p ∈ (parse_visit cfg folder path t st).dirsOut →
      p ∈ st.dirsOut ∨ cfg.excl folder p = false) ∧
    (p ∈ (parse_visit cfg folder path t st).filesOut →
      p ∈ st.filesOut ∨ cfg.excl folder p = false) := by
  cases t with
  | file n b => intro path st p; rw [parse_visit]; exact ⟨Or.inl, Or.inl⟩
  | dir n children =>
    intro path st p
    rw [parse_visit]
    by_cases h1 : cfg.excl folder path = true
    · rw [if_pos h1]
      exact parse_kids_notexcl cfg folder children path _ _ p
    · rw [if_neg h1]
      by_cases h2 : skip_excluded_dir path st.excluded_dirs = true
      · rw [if_pos h2]
        exact parse_kids_notexcl cfg folder children path _ _ p
      · rw [if_neg h2]
        have hkids := parse_kids_notexcl cfg folder children path
          (fun d => !(cfg.excl folder (pathJoin path d)) &&
            (!cfg.exclude_hidden || !(is_hidden_file (pathJoin path d))))
          (parse_files cfg folder path (fileNames children)
            { st with
              excluded_files_count := st.excluded_files_count +
                (if cfg.verbose then ((dirNames children).filter fun d =>
                  cfg.excl folder (pathJoin path d)).length else 0),
              tree := (st.tree ++ indentOf (dirLevel folder path) ++
                basename path ++ ['/', '\n']),
              dirsOut := st.dirsOut ++ [path] }) p
        constructor
        · intro hp
          rcases hkids.1 hp with hin | hok
          · rw [parse_files_dirsOut] at hin
            simp only at hin
            rcases List.mem_append.mp hin with hin | hin
            · exact Or.inl hin
            · right
              have : p = path := by simpa using hin
              subst this
              simpa using h1
          · exact Or.inr hok
        · intro hp
          rcases hkids.2 hp with hin | hok
          · rcases parse_files_filesOut_mem cfg folder path
              (fileNames children) _ p hin with hin2 | ⟨f, _, rfl, hf⟩
            · exact Or.inl hin2
            · exact Or.inr hf
          · exact Or.inr hok
theorem parse_kids_notexcl (cfg : Config) (folder : Str) (ts : List FSTree) :
    ∀ (path : Str) (keep : Str → Bool) (st : ParseSt) (p : Str),
    (p ∈ (parse_kids cfg folder path ts keep st).dirsOut →
      p ∈ st.dirsOut ∨ cfg.excl folder p = false) ∧
    (p ∈ (parse_kids cfg folder path ts keep st).filesOut →
      p ∈ st.filesOut ∨ cfg.excl folder p = false) := by
  cases ts with
  | nil => intro path keep st p; rw [parse_kids]; exact ⟨Or.inl, Or.inl⟩
  | cons t rest =>
    intro path keep st p
    simp only [parse_kids]
    cases t with
    | file n b => exact parse_kids_notexcl cfg folder rest path keep st p
    | dir n cs =>
      dsimp only
      by_cases hk : keep n = true
      · rw [if_pos hk]
        have hrest := parse_kids_notexcl cfg folder rest path keep
          (parse_visit cfg folder (pathJoin path n) (.dir n cs) st) p
        have hvisit := parse_visit_notexcl cfg folder (.dir n cs)
          (pathJoin path n) st p
        constructor
        · intro hp
          rcases hrest.1 hp with hin | hok
          · exact hvisit.1 hin
          · exact Or.inr hok
        · intro hp
          rcases hrest.2 hp with hin | hok
          · exact hvisit.2 hin
          · exact Or.inr hok
      · rw [if_neg hk]
        exact parse_kids_notexcl cfg folder rest path keep st p
end

theorem distinctNames_of_wfTree_dir {n : Str} {children : List FSTree}
    (h : wfTree (.dir n children) = true) :
    distinctNames (childNames children) = true := (wfTree_dir h).2.1

theorem pathJoin_length {path n : Str} (hp : okPath path)
    (hn : okName n = true) :
    (pathJoin path n).length = path.length + n.length + 1 := by
  rw [pathJoin_eq hp hn]; simp; omega

mutual
/-- New tree-pass emissions at an excluded subtree never exist, and any
new emission avoids the cone of every excluded directory of the visited
subtree. -/
theorem parse_visit_sub (cfg : Config) (folder : Str) (t : FSTree) :
    ∀ (path : Str) (st : ParseSt) (p : Str), wfTree t = true → okPath path →
    (p ∈ (parse_visit cfg folder path t st).dirsOut →
      p ∈ st.dirsOut ∨ (inCone path p ∧
        ∀ q ∈ dirPaths path t, cfg.excl folder q = true → ¬ inCone q p)) ∧
    (p ∈ (parse_visit cfg folder path t st).filesOut →
      p ∈ st.filesOut ∨ (inCone path p ∧
        ∀ q ∈ dirPaths path t, cfg.excl folder q = true → ¬ inCone q p)) := by
  cases t with
  | file n b =>
    intro path st p _ _
    rw [parse_visit]
    exact ⟨Or.inl, Or.inl⟩
  | dir n children =>
    intro path st p hwf hpath
    have hwff : wfForest children = true := (wfTree_dir hwf).2.2
    have hdn : distinctNames (childNames children) = true := (wfTree_dir hwf).2.1
    rw [parse_visit]
    by_cases h1 : cfg.excl folder path = true
    · rw [if_pos h1]
      have hne := parse_kids_noemit cfg folder children path (fun _ => true)
        { st with excluded_dirs := path :: st.excluded_dirs,
                  excluded_files_count := st.excluded_files_count + 1 }
        hwff ⟨path, List.mem_cons_self _ _, by
          rw [ List.isPrefixOf_iff_prefix]⟩
      constructor
      · intro hp; rw [hne.1] at hp; exact Or.inl hp
      · intro hp; rw [hne.2.1] at hp; exact Or.inl hp
    · rw [if_neg h1]
      by_cases h2 : skip_excluded_dir path st.excluded_dirs = true
      · rw [if_pos h2]
        have hne := parse_kids_noemit cfg folder children path (fun _ => true)
          st hwff (skip_excluded_dir_iff.mp h2)
        constructor
        · intro hp; rw [hne.1] at hp; exact Or.inl hp
        · intro hp; rw [hne.2.1] at hp; exact Or.inl hp
      · rw [if_neg h2]
        have hkids := parse_kids_sub cfg folder children path
          (fun d => !(cfg.excl folder (pathJoin path d)) &&
            (!cfg.exclude_hidden || !(is_hidden_file (pathJoin path d))))
          (parse_files cfg folder path (fileNames children)
            { st with
              excluded_files_count := st.excluded_files_count +
                (if cfg.verbose then ((dirNames children).filter fun d =>
                  cfg.excl folder (pathJoin path d)).length else 0),
              tree := (st.tree ++ indentOf (dirLevel folder path) ++
                basename path ++ ['/', '\n']),
              dirsOut := st.dirsOut ++ [path] }) p hwff hpath
        -- resolver for an emission known to lie in the cone of child c
        have resolve : ∀ c ∈ children, inCone (pathJoin path c.name) p →
            (∀ q ∈ dirPaths (pathJoin path c.name) c,
              cfg.excl folder q = true → ¬ inCone q p) →
            inCone path p ∧ ∀ q ∈ dirPaths path (.dir n children),
              cfg.excl folder q = true → ¬ inCone q p := by
          intro c hc hcone havoid
          have hcn : okName c.name = true := okName_of_wfTree (wfForest_mem hwff hc)
          refine ⟨inCone_trans (inCone_child hpath hcn) hcone, ?_⟩
          intro q hq hqx hqp
          rw [dirPaths] at hq
          rcases List.mem_cons.mp hq with rfl | hq
          · exact absurd hqx (by simpa using h1)
          · obtain ⟨c0, hc0, hq0⟩ := dirPathsL_mem hq
            have hc0n : okName c0.name = true :=
              okName_of_wfTree (wfForest_mem hwff hc0)
            by_cases hname : c.name = c0.name
            · have : c0 = c := distinct_mem_name_eq hdn hc0 hc (by rw [hname])
              subst this
              exact havoid q hq0 hqx hqp
            · have hq0c : inCone (pathJoin path c0.name) q :=
                dirPaths_inCone (wfForest_mem hwff hc0)
                  (okPath_pathJoin hpath hc0n) hq0
              exact sibling_cones_disjoint hpath hcn hc0n hname hcone
                (inCone_trans hq0c hqp)
        constructor
        · intro hp
          rcases hkids.1 hp with hin | ⟨c, hc, hcone, havoid⟩
          · rw [parse_files_dirsOut] at hin
            simp only at hin
            rcases List.mem_append.mp hin with hin | hin
            · exact Or.inl hin
            · have hppath : p = path := by simpa using hin
              subst hppath
              right
              refine ⟨inCone_refl p, ?_⟩
              intro q hq hqx hqp
              rw [dirPaths] at hq
              rcases List.mem_cons.mp hq with rfl | hq
              · exact absurd hqx (by simpa using h1)
              · obtain ⟨c0, hc0, hq0⟩ := dirPathsL_mem hq
                have hc0n : okName c0.name = true :=
                  okName_of_wfTree (wfForest_mem hwff hc0)
                have hq0c : inCone (pathJoin p c0.name) q :=
                  dirPaths_inCone (wfForest_mem hwff hc0)
                    (okPath_pathJoin hpath hc0n) hq0
                have hlen1 := inCone_length hq0c
                have hlen2 := inCone_length hqp
                rw [pathJoin_length hpath hc0n] at hlen1
                have := okName_ne_nil hc0n
                have hpos : 0 < c0.name.length := List.length_pos.mpr this
                omega
          · exact Or.inr (resolve c hc hcone havoid)
        · intro hp
          rcases hkids.2 hp with hin | ⟨c, hc, hcone, havoid⟩
          · rcases parse_files_filesOut_mem cfg folder path
              (fileNames children) _ p hin with hin2 | ⟨f, hf, rfl, hfx⟩
            · exact Or.inl hin2
            · right
              have hfn : okName f = true := okName_of_mem_fileNames hwff hf
              refine ⟨inCone_child hpath hfn, ?_⟩
              intro q hq hqx hqp
              rw [dirPaths] at hq
              rcases List.mem_cons.mp hq with rfl | hq
              · exact absurd hqx (by simpa using h1)
              · obtain ⟨c0, hc0, hq0⟩ := dirPathsL_mem hq
                have hc0n : okName c0.name = true :=
                  okName_of_wfTree (wfForest_mem hwff hc0)
                have hq0c : inCone (pathJoin path c0.name) q :=
                  dirPaths_inCone (wfForest_mem hwff hc0)
                    (okPath_pathJoin hpath hc0n) hq0
                -- q = pathJoin path c0.name ++ rq and the file path is
                -- pathJoin path f; a cone relation forces q to equal the
                -- file path, contradicting the exclusion verdicts.
                obtain ⟨rq, hrq, hq0eq⟩ := hq0c
                obtain ⟨r2, hr2, hp2⟩ := hqp
                rw [hq0eq] at hp2
                rw [pathJoin_eq hpath hc0n] at hp2
                rw [pathJoin_eq hpath hfn] at hp2
                simp only [List.append_assoc, List.cons_append,
                  List.append_cancel_left_eq, List.cons.injEq, true_and] at hp2
                have hfeq : f = c0.name := by
                  have : f ++ ([] : Str) = c0.name ++ (rq ++ r2) := by
                    simpa using hp2
                  exact name_append_inj (okName_ne_nil hfn) (okName_no_sep hfn)
                    (okName_ne_nil hc0n) (okName_no_sep hc0n)
                    (Or.inl rfl) (slashTail_append hrq hr2) this
                have hnil : rq ++ r2 = [] := by
                  have := hp2
                  rw [hfeq] at this
                  have h' : c0.name ++ ([] : Str) = c0.name ++ (rq ++ r2) := by
                    simpa using this
                  exact (List.append_cancel_left h').symm
                have hqeq : q = pathJoin path f := by
                  rw [hq0eq, hfeq]
                  have : rq = [] := by
                    cases rq with
                    | nil => rfl
                    | cons a b => simp at hnil
                  rw [this, List.append_nil]
                rw [hqeq] at hqx
                rw [hqx] at hfx
                cases hfx
          · exact Or.inr (resolve c hc hcone havoid)
theorem parse_kids_sub (cfg : Config) (folder : Str) (ts : List FSTree) :
    ∀ (path : Str) (keep : Str → Bool) (st : ParseSt) (p : Str),
    wfForest ts = true → okPath path →
    (p ∈ (parse_kids cfg folder path ts keep st).dirsOut →
      p ∈ st.dirsOut ∨ ∃ c ∈ ts, inCone (pathJoin path c.name) p ∧
        ∀ q ∈ dirPaths (pathJoin path c.name) c,
          cfg.excl folder q = true → ¬ inCone q p) ∧
    (p ∈ (parse_kids cfg folder path ts keep st).filesOut →
      p ∈ st.filesOut ∨ ∃ c ∈ ts, inCone (pathJoin path c.name) p ∧
        ∀ q ∈ dirPaths (pathJoin path c.name) c,
          cfg.excl folder q = true → ¬ inCone q p) := by
  cases ts with
  | nil =>
    intro path keep st p _ _
    rw [parse_kids]
    exact ⟨Or.inl, Or.inl⟩
  | cons t rest =>
    intro path keep st p hwf hpath
    rw [wfForest] at hwf
    simp only [Bool.and_eq_true] at hwf
    simp only [parse_kids]
    cases t with
    | file nm b =>
      have hrest := parse_kids_sub cfg folder rest path keep st p hwf.2 hpath
      constructor
      · intro hp
        rcases hrest.1 hp with hin | ⟨c, hc, hrest'⟩
        · exact Or.inl hin
        · exact Or.inr ⟨c, List.mem_cons_of_mem _ hc, hrest'⟩
      · intro hp
        rcases hrest.2 hp with hin | ⟨c, hc, hrest'⟩
        · exact Or.inl hin
        · exact Or.inr ⟨c, List.mem_cons_of_mem _ hc, hrest'⟩
    | dir nm cs =>
      dsimp only
      by_cases hk : keep nm = true
      · rw [if_pos hk]
        have hrest := parse_kids_sub cfg folder rest path keep
          (parse_visit cfg folder (pathJoin path nm) (.dir nm cs) st) p
          hwf.2 hpath
        have hvisit := parse_visit_sub cfg folder (.dir nm cs)
          (pathJoin path nm) st p hwf.1
          (okPath_pathJoin hpath (okName_of_wfTree hwf.1))
        constructor
        · intro hp
          rcases hrest.1 hp with hin | ⟨c, hc, hrest'⟩
          · rcases hvisit.1 hin with hin2 | ⟨hcone, havoid⟩
            · exact Or.inl hin2
            · exact Or.inr ⟨.dir nm cs, List.mem_cons_self _ _, hcone, havoid⟩
          · exact Or.inr ⟨c, List.mem_cons_of_mem _ hc, hrest'⟩
        · intro hp
          rcases hrest.2 hp with hin | ⟨c, hc, hrest'⟩
          · rcases hvisit.2 hin with hin2 | ⟨hcone, havoid⟩
            · exact Or.inl hin2
            · exact Or.inr ⟨.dir nm cs, List.mem_cons_self _ _, hcone, havoid⟩
          · exact Or.inr ⟨c, List.mem_cons_of_mem _ hc, hrest'⟩
      · rw [if_neg hk]
        have hrest := parse_kids_sub cfg folder rest path keep st p hwf.2 hpath
        constructor
        · intro hp
          rcases hrest.1 hp with hin | ⟨c, hc, hrest'⟩
          · exact Or.inl hin
          · exact Or.inr ⟨c, List.mem_cons_of_mem _ hc, hrest'⟩
        · intro hp
          rcases hrest.2 hp with hin | ⟨c, hc, hrest'⟩
          · exact Or.inl hin
          · exact Or.inr ⟨c, List.mem_cons_of_mem _ hc, hrest'⟩
end

/-! ### Invariants of the content pass (`_process_files`) -/

mutual
theorem process_visit_mono (cfg : Config) (folder cwd : Str) (t : FSTree) :
    ∀ (path : Str) (st : ProcSt), ∀ e ∈ st.excluded_dirs,
    e ∈ (process_visit cfg folder cwd path t st).excluded_dirs := by
  cases t with
  | file n b => intro path st e he; rw [process_visit]; exact he
  | dir n children =>
    intro path st e he
    rw [process_visit]
    by_cases h1 : cfg.excl folder path = true
    · rw [if_pos h1]
      exact process_kids_mono cfg folder cwd children path _ _ e
        (List.mem_cons_of_mem path he)
    · rw [if_neg h1]
      by_cases h2 : skip_excluded_dir path st.excluded_dirs = true
      · rw [if_pos h2]
        exact process_kids_mono cfg folder cwd children path _ _ e he
      · rw [if_neg h2]
        apply process_kids_mono
        rw [process_files_in_excluded_dirs]
        exact he
theorem process_kids_mono (cfg : Config) (folder cwd : Str)
    (ts : List FSTree) :
    ∀ (path : Str) (keep : Str → Bool) (st : ProcSt), ∀ e ∈ st.excluded_dirs,
    e ∈ (process_kids cfg folder cwd path ts keep st).excluded_dirs := by
  cases ts with
  | nil => intro path keep st e he; rw [process_kids]; exact he
  | cons t rest =>
    intro path keep st e he
    simp only [process_kids]
    apply process_kids_mono
    cases t with
    | file n b => exact he
    | dir n cs =>
      dsimp only
      by_cases hk : keep n = true
      · rw [if_pos hk]
        exact process_visit_mono cfg folder cwd (.dir n cs) (pathJoin path n)
          st e he
      · rw [if_neg hk]; exact he
end

mutual
theorem process_visit_noemit (cfg : Config) (folder cwd : Str) (t : FSTree) :
    ∀ (path : Str) (st : ProcSt), wfTree t = true →
    (∃ e ∈ st.excluded_dirs, e.isPrefixOf path = true) →
    (process_visit cfg folder cwd path t st).filesOut = st.filesOut ∧
    (process_visit cfg folder cwd path t st).recs = st.recs ∧
    (process_visit cfg folder cwd path t st).content = st.content := by
  cases t with
  | file n b => intro path st _ _; rw [process_visit]; exact ⟨rfl, rfl, rfl⟩
  | dir n children =>
    intro path st hwf hex
    rw [process_visit]
    by_cases h1 : cfg.excl folder path = true
    · rw [if_pos h1]
      apply process_kids_noemit cfg folder cwd children path _ _
        (wfTree_dir hwf).2.2
      obtain ⟨e, he, hpre⟩ := hex
      exact ⟨e, List.mem_cons_of_mem path he, hpre⟩
    · rw [if_neg h1]
      rw [if_pos (skip_excluded_dir_iff.mpr hex)]
      exact process_kids_noemit cfg folder cwd children path _ _
        (wfTree_dir hwf).2.2 hex
theorem process_kids_noemit (cfg : Config) (folder cwd : Str)
    (ts : List FSTree) :
    ∀ (path : Str) (keep : Str → Bool) (st : ProcSt), wfForest ts = true →
    (∃ e ∈ st.excluded_dirs, e.isPrefixOf path = true) →
    (process_kids cfg folder cwd path ts keep st).filesOut = st.filesOut ∧
    (process_kids cfg folder cwd path ts keep st).recs = st.recs ∧
    (process_kids cfg folder cwd path ts keep st).content = st.content := by
  cases ts with
  | nil => intro path keep st _ _; rw [process_kids]; exact ⟨rfl, rfl, rfl⟩
  | cons t rest =>
    intro path keep st hwf hex
    rw [wfForest] at hwf
    simp only [Bool.and_eq_true] at hwf
    simp only [process_kids]
    cases t with
    | file n b =>
      exact process_kids_noemit cfg folder cwd rest path keep st hwf.2 hex
    | dir n cs =>
      dsimp only
      by_cases hk : keep n = true
      · rw [if_pos hk]
        obtain ⟨e, he, hpre⟩ := hex
        have hex' : ∃ e ∈ st.excluded_dirs,
            e.isPrefixOf (pathJoin path n) = true :=
          ⟨e, he, isPrefixOf_pathJoin (okName_of_wfTree hwf.1) hpre⟩
        have hvisit := process_visit_noemit cfg folder cwd (.dir n cs)
          (pathJoin path n) st hwf.1 hex'
        have hexrest : ∃ e ∈ (process_visit cfg folder cwd (pathJoin path n)
            (.dir n cs) st).excluded_dirs, e.isPrefixOf path = true :=
          ⟨e, process_visit_mono cfg folder cwd (.dir n cs) (pathJoin path n)
            st e he, hpre⟩
        have hrest := process_kids_noemit cfg folder cwd rest path keep _
          hwf.2 hexrest
        refine ⟨?_, ?_, ?_⟩
        · rw [hrest.1, hvisit.1]
        · rw [hrest.2.1, hvisit.2.1]
        · rw [hrest.2.2, hvisit.2.2]
      · rw [if_neg hk]
        exact process_kids_noemit cfg folder cwd rest path keep st hwf.2 hex
end

mutual
theorem process_visit_notexcl (cfg : Config) (folder cwd : Str) (t : FSTree) :
    ∀ (path : Str) (st : ProcSt) (p : Str),
    p ∈ (process_visit cfg folder cwd path t st).filesOut →
      p ∈ st.filesOut ∨ cfg.excl folder p = false := by
  cases t with
  | file n b => intro path st p hp; rw [process_visit] at hp; exact Or.inl hp
  | dir n children =>
    intro path st p hp
    rw [process_visit] at hp
    by_cases h1 : cfg.excl folder path = true
    · rw [if_pos h1] at hp
      rcases process_kids_notexcl cfg folder cwd children path _
        { st with excluded_dirs := path :: st.excluded_dirs } p hp
        with hin | hok
      · exact Or.inl hin
      · exact Or.inr hok
    · rw [if_neg h1] at hp
      by_cases h2 : skip_excluded_dir path st.excluded_dirs = true
      · rw [if_pos h2] at hp
        exact process_kids_notexcl cfg folder cwd children path _ _ p hp
      · rw [if_neg h2] at hp
        rcases process_kids_notexcl cfg folder cwd children path _ _ p hp
          with hin | hok
        · rcases process_files_in_filesOut_mem cfg folder cwd path
            (fileEntries children) _ p hin with hin2 | ⟨fb, _, rfl, hfx⟩
          · exact Or.inl hin2
          · exact Or.inr hfx
        · exact Or.inr hok
theorem process_kids_notexcl (cfg : Config) (folder cwd : Str)
    (ts : List FSTree) :
    ∀ (path : Str) (keep : Str → Bool) (st : ProcSt) (p : Str),
    p ∈ (process_kids cfg folder cwd path ts keep st).filesOut →
      p ∈ st.filesOut ∨ cfg.excl folder p = false := by
  cases ts with
  | nil => intro path keep st p hp; rw [process_kids] at hp; exact Or.inl hp
  | cons t rest =>
    intro path keep st p hp
    simp only [process_kids] at hp
    cases t with
    | file n b => exact process_kids_notexcl cfg folder cwd rest path keep st p hp
    | dir n cs =>
      rw [show (match FSTree.dir n cs with
          | FSTree.file _ _ => st
          | FSTree.dir n _ =>
            if keep n = true then
              process_visit cfg folder cwd (pathJoin path n) (.dir n cs) st
            else st) =
          (if keep n = true then
            process_visit cfg folder cwd (pathJoin path n) (.dir n cs) st
          else st) from rfl] at hp
      by_cases hk : keep n = true
      · rw [if_pos hk] at hp
        rcases process_kids_notexcl cfg folder cwd rest path keep _ p hp
          with hin | hok
        · exact process_visit_notexcl cfg folder cwd (.dir n cs)
            (pathJoin path n) st p hin
        · exact Or.inr hok
      · rw [if_neg hk] at hp
        exact process_kids_notexcl cfg folder cwd rest path keep st p hp
end

theorem fileEntries_fst {children : List FSTree} :
    ∀ {fb : Str × List Nat}, fb ∈ fileEntries children →
      fb.1 ∈ fileNames children := by
  induction children with
  | nil => intro fb h; simp [fileEntries] at h
  | cons c rest ih =>
    intro fb h
    cases c with
    | file nn bb =>
      simp only [fileEntries, List.filterMap_cons] at h
      simp only [fileNames, List.filterMap_cons]
      rcases List.mem_cons.mp h with h' | h'
      · subst h'; exact List.mem_cons_self _ _
      · exact List.mem_cons_of_mem _ (ih h')
    | dir nn cc =>
      simp only [fileEntries, List.filterMap_cons] at h
      simp only [fileNames, List.filterMap_cons]
      exact ih h

mutual
/-- New content-pass records at an excluded subtree never exist, and any
new record's path avoids the cone of every excluded directory of the
visited subtree. -/
theorem process_visit_sub (cfg : Config) (folder cwd : Str) (t : FSTree) :
    ∀ (path : Str) (st : ProcSt) (p : Str), wfTree t = true → okPath path →
    p ∈ (process_visit cfg folder cwd path t st).filesOut →
      p ∈ st.filesOut ∨ (inCone path p ∧
        ∀ q ∈ dirPaths path t, cfg.excl folder q = true → ¬ inCone q p) := by
  cases t with
  | file n b =>
    intro path st p _ _ hp
    rw [process_visit] at hp
    exact Or.inl hp
  | dir n children =>
    intro path st p hwf hpath hp
    have hwff : wfForest children = true := (wfTree_dir hwf).2.2
    have hdn : distinctNames (childNames children) = true := (wfTree_dir hwf).2.1
    rw [process_visit] at hp
    by_cases h1 : cfg.excl folder path = true
    · rw [if_pos h1] at hp
      have hne := process_kids_noemit cfg folder cwd children path
        (fun _ => true)
        { st with excluded_dirs := path :: st.excluded_dirs }
        hwff ⟨path, List.mem_cons_self _ _, by
          rw [ List.isPrefixOf_iff_prefix]⟩
      rw [hne.1] at hp
      exact Or.inl hp
    · rw [if_neg h1] at hp
      by_cases h2 : skip_excluded_dir path st.excluded_dirs = true
      · rw [if_pos h2] at hp
        have hne := process_kids_noemit cfg folder cwd children path
          (fun _ => true) st hwff (skip_excluded_dir_iff.mp h2)
        rw [hne.1] at hp
        exact Or.inl hp
      · rw [if_neg h2] at hp
        have resolve : ∀ c ∈ children, inCone (pathJoin path c.name) p →
            (∀ q ∈ dirPaths (pathJoin path c.name) c,
              cfg.excl folder q = true → ¬ inCone q p) →
            inCone path p ∧ ∀ q ∈ dirPaths path (.dir n children),
              cfg.excl folder q = true → ¬ inCone q p := by
          intro c hc hcone havoid
          have hcn : okName c.name = true :=
            okName_of_wfTree (wfForest_mem hwff hc)
          refine ⟨inCone_trans (inCone_child hpath hcn) hcone, ?_⟩
          intro q hq hqx hqp
          rw [dirPaths] at hq
          rcases List.mem_cons.mp hq with rfl | hq
          · exact absurd hqx (by simpa using h1)
          · obtain ⟨c0, hc0, hq0⟩ := dirPathsL_mem hq
            have hc0n : okName c0.name = true :=
              okName_of_wfTree (wfForest_mem hwff hc0)
            by_cases hname : c.name = c0.name
            · have : c0 = c := distinct_mem_name_eq hdn hc0 hc (by rw [hname])
              subst this
              exact havoid q hq0 hqx hqp
            · have hq0c : inCone (pathJoin path c0.name) q :=
                dirPaths_inCone (wfForest_mem hwff hc0)
                  (okPath_pathJoin hpath hc0n) hq0
              exact sibling_cones_disjoint hpath hcn hc0n hname hcone
                (inCone_trans hq0c hqp)
        rcases process_kids_sub cfg folder cwd children path _ _ p hwff hpath
          hp with hin | ⟨c, hc, hcone, havoid⟩
        · rcases process_files_in_filesOut_mem cfg folder cwd path
            (fileEntries children) _ p hin with hin2 | ⟨fb, hfb, rfl, hfx⟩
          · exact Or.inl hin2
          · right
            have hfn : okName fb.1 = true :=
              okName_of_mem_fileNames hwff (fileEntries_fst hfb)
            refine ⟨inCone_child hpath hfn, ?_⟩
            intro q hq hqx hqp
            rw [dirPaths] at hq
            rcases List.mem_cons.mp hq with rfl | hq
            · exact absurd hqx (by simpa using h1)
            · obtain ⟨c0, hc0, hq0⟩ := dirPathsL_mem hq
              have hc0n : okName c0.name = true :=
                okName_of_wfTree (wfForest_mem hwff hc0)
              have hq0c : inCone (pathJoin path c0.name) q :=
                dirPaths_inCone (wfForest_mem hwff hc0)
                  (okPath_pathJoin hpath hc0n) hq0
              obtain ⟨rq, hrq, hq0eq⟩ := hq0c
              obtain ⟨r2, hr2, hp2⟩ := hqp
              rw [hq0eq] at hp2
              rw [pathJoin_eq hpath hc0n] at hp2
              rw [pathJoin_eq hpath hfn] at hp2
              simp only [List.append_assoc, List.cons_append,
                List.append_cancel_left_eq, List.cons.injEq, true_and] at hp2
              have hfeq : fb.1 = c0.name := by
                have : fb.1 ++ ([] : Str) = c0.name ++ (rq ++ r2) := by
                  simpa using hp2
                exact name_append_inj (okName_ne_nil hfn) (okName_no_sep hfn)
                  (okName_ne_nil hc0n) (okName_no_sep hc0n)
                  (Or.inl rfl) (slashTail_append hrq hr2) this
              have hnil : rq ++ r2 = [] := by
                have := hp2
                rw [hfeq] at this
                have h' : c0.name ++ ([] : Str) = c0.name ++ (rq ++ r2) := by
                  simpa using this
                exact (List.append_cancel_left h').symm
              have hqeq : q = pathJoin path fb.1 := by
                rw [hq0eq, hfeq]
                have : rq = [] := by
                  cases rq with
                  | nil => rfl
                  | cons a b => simp at hnil
                rw [this, List.append_nil]
              rw [hqeq] at hqx
              rw [hqx] at hfx
              cases hfx
        · exact Or.inr (resolve c hc hcone havoid)
theorem process_kids_sub (cfg : Config) (folder cwd : Str) (ts : List FSTree) :
    ∀ (path : Str) (keep : Str → Bool) (st : ProcSt) (p : Str),
    wfForest ts = true → okPath path →
    p ∈ (process_kids cfg folder cwd path ts keep st).filesOut →
      p ∈ st.filesOut ∨ ∃ c ∈ ts, inCone (pathJoin path c.name) p ∧
        ∀ q ∈ dirPaths (pathJoin path c.name) c,
          cfg.excl folder q = true → ¬ inCone q p := by
  cases ts with
  | nil =>
    intro path keep st p _ _ hp
    rw [process_kids] at hp
    exact Or.inl hp
  | cons t rest =>
    intro path keep st p hwf hpath hp
    rw [wfForest] at hwf
    simp only [Bool.and_eq_true] at hwf
    simp only [process_kids] at hp
    cases t with
    | file nm b =>
      rcases process_kids_sub cfg folder cwd rest path keep st p hwf.2 hpath hp
        with hin | ⟨c, hc, hrest'⟩
      · exact Or.inl hin
      · exact Or.inr ⟨c, List.mem_cons_of_mem _ hc, hrest'⟩
    | dir nm cs =>
      rw [show (match FSTree.dir nm cs with
          | FSTree.file _ _ => st
          | FSTree.dir n _ =>
            if keep n = true then
              process_visit cfg folder cwd (pathJoin path n) (.dir nm cs) st
            else st) =
          (if keep nm = true then
            process_visit cfg folder cwd (pathJoin path nm) (.dir nm cs) st
          else st) from rfl] at hp
      by_cases hk : keep nm = true
      · rw [if_pos hk] at hp
        rcases process_kids_sub cfg folder cwd rest path keep _ p hwf.2 hpath
          hp with hin | ⟨c, hc, hrest'⟩
        · rcases process_visit_sub cfg folder cwd (.dir nm cs)
            (pathJoin path nm) st p hwf.1
            (okPath_pathJoin hpath (okName_of_wfTree hwf.1)) hin
            with hin2 | ⟨hcone, havoid⟩
          · exact Or.inl hin2
          · exact Or.inr ⟨.dir nm cs, List.mem_cons_self _ _, hcone, havoid⟩
        · exact Or.inr ⟨c, List.mem_cons_of_mem _ hc, hrest'⟩
      · rw [if_neg hk] at hp
        rcases process_kids_sub cfg folder cwd rest path keep st p hwf.2 hpath
          hp with hin | ⟨c, hc, hrest'⟩
        · exact Or.inl hin
        · exact Or.inr ⟨c, List.mem_cons_of_mem _ hc, hrest'⟩
end

/-! ### Content of the content pass is the concatenation of its records -/

theorem process_files_in_cons (cfg : Config) (folder cwd path : Str)
    (fb : Str × List Nat) (rest : List (Str × List Nat)) (st : ProcSt) :
    process_files_in cfg folder cwd path (fb :: rest) st =
      process_files_in cfg folder cwd path rest
        (match process_single_file cfg folder cwd (pathJoin path fb.1) fb.2 with
         | some record =>
           { st with content := st.content ++ record,
                     recs := st.recs ++ [record],
                     filesOut := st.filesOut ++ [pathJoin path fb.1] }
         | none => st) := rfl

theorem process_files_in_flat (cfg : Config) (folder cwd path : Str)
    (files : List (Str × List Nat)) :
    ∀ (st : ProcSt), st.content = st.recs.flatten →
    (process_files_in cfg folder cwd path files st).content =
      (process_files_in cfg folder cwd path files st).recs.flatten := by
  induction files with
  | nil => intro st h; exact h
  | cons fb rest ih =>
    intro st h
    rw [process_files_in_cons]
    apply ih
    cases hps : process_single_file cfg folder cwd (pathJoin path fb.1) fb.2 with
    | none => simpa [hps] using h
    | some r => simp [hps, h, List.flatten_append]

mutual
theorem process_visit_flat (cfg : Config) (folder cwd : Str) (t : FSTree) :
    ∀ (path : Str) (st : ProcSt), st.content = st.recs.flatten →
    (process_visit cfg folder cwd path t st).content =
      (process_visit cfg folder cwd path t st).recs.flatten := by
  cases t with
  | file n b => intro path st h; rw [process_visit]; exact h
  | dir n children =>
    intro path st h
    rw [process_visit]
    by_cases h1 : cfg.excl folder path = true
    · rw [if_pos h1]
      exact process_kids_flat cfg folder cwd children path _ _ h
    · rw [if_neg h1]
      by_cases h2 : skip_excluded_dir path st.excluded_dirs = true
      · rw [if_pos h2]
        exact process_kids_flat cfg folder cwd children path _ _ h
      · rw [if_neg h2]
        apply process_kids_flat
        exact process_files_in_flat cfg folder cwd path (fileEntries children)
          st h
theorem process_kids_flat (cfg : Config) (folder cwd : Str)
    (ts : List FSTree) :
    ∀ (path : Str) (keep : Str → Bool) (st : ProcSt),
    st.content = st.recs.flatten →
    (process_kids cfg folder cwd path ts keep st).content =
      (process_kids cfg folder cwd path ts keep st).recs.flatten := by
  cases ts with
  | nil => intro path keep st h; rw [process_kids]; exact h
  | cons t rest =>
    intro path keep st h
    simp only [process_kids]
    apply process_kids_flat
    cases t with
    | file n b => exact h
    | dir n cs =>
      dsimp only
      by_cases hk : keep n = true
      · rw [if_pos hk]
        exact process_visit_flat cfg folder cwd (.dir n cs) (pathJoin path n)
          st h
      · rw [if_neg hk]; exact h
end

/-! ### The exclusion counter is additive in its starting value -/

theorem parse_files_cons (cfg : Config) (folder path : Str) (f : Str)
    (rest : List Str) (st : ParseSt) :
    parse_files cfg folder path (f :: rest) st =
      parse_files cfg folder path rest (parse_files_step cfg folder path f st) :=
  rfl

theorem parse_files_bump (cfg : Config) (folder path : Str)
    (files : List Str) :
    ∀ (st : ParseSt) (k : Nat),
    parse_files cfg folder path files (st.bump k) =
      (parse_files cfg folder path files st).bump k := by
  induction files with
  | nil => intro st k; rfl
  | cons f rest ih =>
    intro st k
    rw [parse_files_cons, parse_files_cons, ← ih]
    congr 1
    rw [parse_files_step, parse_files_step]
    by_cases h : cfg.excl folder (pathJoin path f) = true
    · simp only [h, Bool.not_true, Bool.false_eq_true, if_false]
      simp only [ParseSt.bump]
      congr 1
      omega
    · simp only [h, Bool.not_false, if_true]
      rfl

theorem ParseSt.ext_eq {a b : ParseSt} (h1 : a.tree = b.tree)
    (h2 : a.dirsOut = b.dirsOut) (h3 : a.filesOut = b.filesOut)
    (h4 : a.excluded_dirs = b.excluded_dirs)
    (h5 : a.excluded_files_count = b.excluded_files_count) : a = b := by
  cases a; cases b; simp_all

mutual
theorem parse_visit_bump (cfg : Config) (folder : Str) (t : FSTree) :
    ∀ (path : Str) (st : ParseSt) (k : Nat),
    parse_visit cfg folder path t (st.bump k) =
      (parse_visit cfg folder path t st).bump k := by
  cases t with
  | file n b => intro path st k; rw [parse_visit, parse_visit]
  | dir n children =>
    intro path st k
    rw [parse_visit, parse_visit]
    by_cases h1 : cfg.excl folder path = true
    · rw [if_pos h1, if_pos h1]
      rw [← parse_kids_bump]
      congr 1
      apply ParseSt.ext_eq
      · rfl
      · rfl
      · rfl
      · rfl
      · simp only [ParseSt.bump]
        omega
    · rw [if_neg h1, if_neg h1]
      by_cases h2 : skip_excluded_dir path st.excluded_dirs = true
      · rw [if_pos (show skip_excluded_dir path (st.bump k).excluded_dirs =
          true from h2), if_pos h2]
        exact parse_kids_bump cfg folder children path _ st k
      · rw [if_neg (show ¬ skip_excluded_dir path (st.bump k).excluded_dirs =
          true from h2), if_neg h2]
        dsimp only
        rw [← parse_kids_bump]
        congr 1
        rw [← parse_files_bump]
        congr 1
        apply ParseSt.ext_eq
        · rfl
        · rfl
        · rfl
        · rfl
        · simp only [ParseSt.bump]
          omega
theorem parse_kids_bump (cfg : Config) (folder : Str) (ts : List FSTree) :
    ∀ (path : Str) (keep : Str → Bool) (st : ParseSt) (k : Nat),
    parse_kids cfg folder path ts keep (st.bump k) =
      (parse_kids cfg folder path ts keep st).bump k := by
  cases ts with
  | nil => intro path keep st k; rw [parse_kids, parse_kids]
  | cons t rest =>
    intro path keep st k
    simp only [parse_kids]
    rw [← parse_kids_bump]
    congr 1
    cases t with
    | file n b => rfl
    | dir n cs =>
      dsimp only
      by_cases hk : keep n = true
      · rw [if_pos hk, if_pos hk]
        exact parse_visit_bump cfg folder (.dir n cs) (pathJoin path n) st k
      · rw [if_neg hk, if_neg hk]
end

theorem parse_folder_bump (cfg : Config) (folder : Str) (t : FSTree)
    (c0 : Nat) :
    (parse_folder cfg folder t c0).excluded_files_count =
      c0 + (parse_folder cfg folder t 0).excluded_files_count := by
  have h0 : ParseSt.mk [] [] [] [] c0 = (ParseSt.mk [] [] [] [] 0).bump c0 := by
    simp [ParseSt.bump]
  rw [parse_folder, parse_folder, h0, parse_visit_bump]
  simp [ParseSt.bump]
  omega

/-! ### Sanity checks of the engine against the repository's test
expectations (`tests/test_codebase_to_text.py`). -/

example : should_exclude [("*.py".toList), ("*.log".toList)] false (("test.py".toList)) (("/base".toList)) = true := by decide
example : should_exclude [("*.py".toList), ("*.log".toList)] false (("README.md".toList)) (("/base".toList)) = false := by decide
example : should_exclude [("__pycache__/".toList), ("node_modules/".toList)] false
    (("/base/__pycache__".toList)) (("/base".toList)) = true := by decide
example : should_exclude [("**/__pycache__/**".toList)] false
    (("/base/src/utils/__pycache__/file.pyc".toList)) (("/base".toList)) = true := by decide
example : fnmatch (("app.log".toList)) (("*.log".toList)) = true := by decide
example : is_hidden_file (("/base/.git".toList)) = true := by decide
example : is_hidden_file (("/base/__pycache__".toList)) = true := by decide
example : is_hidden_file (("/base/src/app.py".toList)) = false := by decide
example : (process_files cfgC (("base".toList)) (("/cwd".toList)) sampleA).recs =
  [("\n\nmain.py\nFile type: .py\nprint hi\n\n".toList) ++ delimiter ++
    ("\nFile End\n".toList) ++ delimiter ++ ("\n".toList)] := by decide

/-! ### Claim C2 -/

/-- C2, claim as stated is false at concrete inputs: `_is_hidden_file`
normalizes the path first, so the raw component `..` of `a/../b` (which
starts with `.`) does not make the path hidden; and with an empty
pattern set `_should_exclude` returns `False` before the hidden check,
so a hidden path is not excluded even with the switch on. -/
theorem C2_counterexample :
    (specRawHidden (("a/../b".toList)) = true ∧ is_hidden_file (("a/../b".toList)) = false)
    ∧ (is_hidden_file ((".env".toList)) = true ∧
       should_exclude [] true ((".env".toList)) (("base".toList)) = false) := by decide

/-- C2 (amended): a path is hidden exactly when some component of its
normalized form starts with `.` or `__`; with the exclude-hidden switch
on and a non-empty pattern set, `_should_exclude` returns true for every
hidden path before any pattern test; and the pattern set assembled by
`_load_exclusion_patterns` is never empty, because the defaults are
always injected. -/
theorem C2_hidden_exclusion :
    (∀ p, is_hidden_file p = true ↔ ∃ c ∈ pySplit '/' (normpath p),
      (List.isPrefixOf ['.'] c = true ∨ List.isPrefixOf ['_', '_'] c = true))
    ∧ (∀ (pats : List Str) (path base : Str), pats ≠ [] →
        is_hidden_file path = true →
        should_exclude pats true path base = true)
    ∧ (∀ (args : List Str) (f : Option (List Str)),
        load_exclusion_patterns args f ≠ []) := by
  refine ⟨?_, ?_, ?_⟩
  · intro p
    simp [is_hidden_file, List.any_eq_true]
  · intro pats path base hne hhid
    rw [should_exclude]
    rw [if_neg (by simpa [List.isEmpty_iff] using hne)]
    rw [if_pos (by simp [hhid])]
  · intro args f
    intro hcontra
    rw [load_exclusion_patterns] at hcontra
    rcases List.append_eq_nil.mp hcontra with ⟨h1, -⟩
    rcases List.append_eq_nil.mp h1 with ⟨-, h2⟩
    simp [default_excludes] at h2

/-- C2 witness: a hidden file is excluded under a non-empty pattern set. -/
theorem C2_hidden_exclusion_witness :
    should_exclude [("*.log".toList)] true (("/r/.env".toList)) (("/r".toList)) = true :=
  C2_hidden_exclusion.2.1 [("*.log".toList)] (("/r/.env".toList)) (("/r".toList))
    (by decide) (by decide)

/-! ### Claim C3 -/

/-- C3: a pattern ending in `/` excludes any path one of whose
normalized components glob-matches the slash-stripped pattern; and in
Scenario C (root containing `venv/lib/file`, pattern `venv/`), neither
`venv` nor `lib` nor `file` appears anywhere in the output text. -/
theorem C3_dir_pattern_exclusion :
    (∀ (pats : List Str) (hid : Bool) (pattern path base : Str),
      pattern ∈ pats → endsWithChar pattern '/' = true →
      (∃ part ∈ pySplit '/' (normalize_path path base),
        fnmatch part (rstripSlashes pattern) = true) →
      should_exclude pats hid path base = true)
    ∧ (hasSubstr (get_text cfgC (("proj".toList)) (("/cwd".toList)) sampleC 0).1
        (("venv".toList)) = false
      ∧ hasSubstr (get_text cfgC (("proj".toList)) (("/cwd".toList)) sampleC 0).1
        (("lib".toList)) = false
      ∧ hasSubstr (get_text cfgC (("proj".toList)) (("/cwd".toList)) sampleC 0).1
        (("file".toList)) = false) := by
  constructor
  · intro pats hid pattern path base hmem hslash hpart
    rw [should_exclude]
    rw [if_neg (by
      simp only [List.isEmpty_iff]
      intro hcontra
      rw [hcontra] at hmem
      simp at hmem)]
    by_cases hh : (hid && is_hidden_file path) = true
    · rw [if_pos hh]
    · rw [if_neg hh]
      rw [List.any_eq_true]
      refine ⟨pattern, hmem, ?_⟩
      rw [pattern_matches]
      obtain ⟨part, hp1, hp2⟩ := hpart
      have hdir : dir_pattern_match (rstripSlashes pattern)
          (normalize_path path base) = true := by
        rw [dir_pattern_match, List.any_eq_true]
        exact ⟨part, hp1, hp2⟩
      simp [hslash, hdir]
  · exact ⟨by decide, by decide, by decide⟩

/-- C3 witness: under pattern `venv/`, the path `proj/venv` is
excluded. -/
theorem C3_dir_pattern_exclusion_witness :
    should_exclude [("venv/".toList)] false (("proj/venv".toList)) (("proj".toList)) = true :=
  C3_dir_pattern_exclusion.1 [("venv/".toList)] false (("venv/".toList)) (("proj/venv".toList))
    (("proj".toList)) (by decide) (by decide) ⟨("venv".toList), by decide, by decide⟩

/-! ### Claim C4 -/

/-- C4, claim as stated is false: reading "collapsing `**/` and `**`
into a single wildcard" literally, the simplified glob of `**/a` would
be `*a`, which matches the path `xa`; but the source's
`_recursive_pattern_match` deletes `**/` outright (simplified glob `a`)
and does not match `xa`, nor does `_pattern_matches` overall. -/
theorem C4_counterexample :
    hasSubstr (("**/a".toList)) (("**".toList)) = true ∧
    specSimplifiedGlob (("**/a".toList)) = ("*a".toList) ∧
    fnmatch (("xa".toList)) (specSimplifiedGlob (("**/a".toList))) = true ∧
    recursive_pattern_match (("**/a".toList)) (("xa".toList)) = false ∧
    pattern_matches (("**/a".toList)) (("xa".toList)) (("xa".toList)) = false := by decide

/-- C4 (amended): for a pattern containing `**`, the simplified glob is
obtained by deleting `**/` and turning remaining `**` into `*`, and
`_recursive_pattern_match` succeeds exactly when that glob matches the
full normalized path or some suffix of its component list. -/
theorem C4_recursive_match (pattern np : Str)
    (h : hasSubstr pattern (("**".toList)) = true) :
    recursive_pattern_match pattern np = true ↔
      (fnmatch np (codeSimplifiedGlob pattern) = true ∨
       ∃ i < (pySplit '/' np).length,
         fnmatch (List.intercalate ['/'] ((pySplit '/' np).drop i))
           (codeSimplifiedGlob pattern) = true) := by
  rw [recursive_pattern_match]
  simp only [codeSimplifiedGlob, Bool.or_eq_true, List.any_eq_true,
    List.mem_range]

/-- C4 witness: `**/x` matches `a/x` through the dropped-components
suffix `x`. -/
theorem C4_recursive_match_witness :
    recursive_pattern_match (("**/x".toList)) (("a/x".toList)) = true :=
  (C4_recursive_match (("**/x".toList)) (("a/x".toList)) (by decide)).mpr
    (Or.inr ⟨1, by decide, by decide⟩)

/-! ### Claim C5 -/

/-- C5, claim as stated is false on the main module: a file whose bytes
are `61 00 62` has a null byte in its first 1024 bytes, yet it decodes
as UTF-8, so `_format_file_content` emits its full raw content and no
statement that the file is binary. -/
theorem C5_counterexample :
    (List.take 1024 [97, 0, 98]).contains 0 = true ∧
    hasSubstr (format_file_content (("/r/data.bin".toList)) (("/r".toList)) [97, 0, 98])
      (("Binary".toList)) = false ∧
    hasSubstr (format_file_content (("/r/data.bin".toList)) (("/r".toList)) [97, 0, 98])
      ['a', Char.ofNat 0, 'b'] = true := by decide

/-- C5 (amended): only the legacy `cli.py` module checks for null
bytes — there, a file with a null byte in its first 1024 bytes gets the
fixed binary record, independent of the rest of its bytes; the main
module's `_get_file_contents` instead returns full content for any
UTF-8-decodable file. -/
theorem C5_binary_records :
    (∀ (file_path : Str) (bytes : List Nat),
      (bytes.take 1024).contains 0 = true →
      cli_process_file_record file_path bytes =
        ("\n\n".toList) ++ file_path ++ ("\n".toList) ++
        ("File type: ".toList) ++ splitext_ext file_path ++ ("\n".toList) ++
        ("Binary file. Content not included.\n".toList) ++
        ("\n\n".toList) ++ delimiter ++ ("\nFile End\n".toList) ++ delimiter ++ ("\n".toList))
    ∧ (∀ (file_path path : Str) (bytes : List Nat) (cps : List Nat),
      utf8Decode bytes = some cps →
      format_file_content file_path path bytes =
        ("\n\n".toList) ++ relpath file_path path ++ ("\n".toList) ++
        ("File type: ".toList) ++ file_type_str file_path ++ ("\n".toList) ++
        cps.map Char.ofNat ++
        ("\n\n".toList) ++ delimiter ++ ("\nFile End\n".toList) ++ delimiter ++ ("\n".toList)) := by
  constructor
  · intro file_path bytes h
    rw [cli_process_file_record, if_pos (by rw [cli_is_binary_file]; exact h)]
  · intro file_path path bytes cps h
    rw [format_file_content, get_file_contents, h]

/-- C5 witness: a one-null-byte file gets the binary record in the
legacy module. -/
theorem C5_binary_records_witness :
    cli_process_file_record (("x.bin".toList)) [0, 65] =
      ("\n\n".toList) ++ ("x.bin".toList) ++ ("\n".toList) ++
      ("File type: ".toList) ++ splitext_ext (("x.bin".toList)) ++ ("\n".toList) ++
      ("Binary file. Content not included.\n".toList) ++
      ("\n\n".toList) ++ delimiter ++ ("\nFile End\n".toList) ++ delimiter ++ ("\n".toList) :=
  C5_binary_records.1 (("x.bin".toList)) [0, 65] (by decide)

/-! ### Claim C6 -/

/-- C6, claim as stated is false: for an invalid output type the error
is not the first observable step — `get_text` (the full traversal) runs
first, and only then is the `ValueError` raised. Nothing is written. -/
theorem C6_counterexample :
    (get_file cfgX (("r".toList)) (("/cwd".toList)) sampleL 0).head? =
      some (FileEvent.ranGetText (get_text cfgX (("r".toList)) (("/cwd".toList)) sampleL 0).1)
    ∧ (get_file cfgX (("r".toList)) (("/cwd".toList)) sampleL 0).head? ≠
      some FileEvent.raisedInvalidType
    ∧ FileEvent.raisedInvalidType ∈ get_file cfgX (("r".toList)) (("/cwd".toList)) sampleL 0 := by
  decide

/-- C6 (amended): for every output type other than `txt` and `docx`,
`get_file` first runs `get_text` in full, then raises the invalid-type
error, and never writes to the output path. -/
theorem C6_invalid_output_type (cfg : Config) (folder cwd : Str)
    (t : FSTree) (c0 : Nat) (h1 : cfg.output_type ≠ ("txt".toList))
    (h2 : cfg.output_type ≠ ("docx".toList)) :
    get_file cfg folder cwd t c0 =
      [FileEvent.ranGetText (get_text cfg folder cwd t c0).1,
       FileEvent.raisedInvalidType]
    ∧ ∀ e ∈ get_file cfg folder cwd t c0, e.isWrite = false := by
  have hform : get_file cfg folder cwd t c0 =
      [FileEvent.ranGetText (get_text cfg folder cwd t c0).1,
       FileEvent.raisedInvalidType] := by
    rw [get_file]
    rw [if_neg h1, if_neg h2]
  refine ⟨hform, ?_⟩
  intro e he
  rw [hform] at he
  rcases List.mem_cons.mp he with rfl | he
  · rfl
  · rcases List.mem_cons.mp he with rfl | he
    · rfl
    · simp at he

/-- C6 witness: with output type `xyz`, the run traverses, raises, and
writes nothing. -/
theorem C6_invalid_output_type_witness :
    get_file cfgX (("r".toList)) (("/cwd".toList)) sampleL 0 =
      [FileEvent.ranGetText (get_text cfgX (("r".toList)) (("/cwd".toList)) sampleL 0).1,
       FileEvent.raisedInvalidType] :=
  (C6_invalid_output_type cfgX (("r".toList)) (("/cwd".toList)) sampleL 0
    (by decide) (by decide)).1

/-! ### Claim C7 -/

/-- C7, claim as stated is false: `get_text` never resets
`excluded_files_count`. On a tree whose traversal excludes one item,
the first call ends with the counter at 1 and a second identical call
ends at 2, so the second call's count covers both traversals. -/
theorem C7_counterexample :
    (get_text cfgL (("r".toList)) (("/cwd".toList)) sampleL 0).2 = 1 ∧
    (get_text cfgL (("r".toList)) (("/cwd".toList)) sampleL
      (get_text cfgL (("r".toList)) (("/cwd".toList)) sampleL 0).2).2 = 2 := by decide

/-- C7 (amended): the exclusion counter is initialized once in the
constructor and never reset; each `get_text` call adds its own run's
exclusions on top of the counter's previous value. -/
theorem C7_counter_accumulates (cfg : Config) (folder cwd : Str)
    (t : FSTree) (c0 : Nat) :
    (get_text cfg folder cwd t c0).2 = c0 + (get_text cfg folder cwd t 0).2 :=
  parse_folder_bump cfg folder t c0

/-! ### Claim C8 -/

/-- C8, claim as stated is false at a concrete run: assembling the
claimed layout (bare 50-dash separator with no following newline, and a
space before `File type:`) does not reproduce the artifact, and the
emitted record differs from the claimed record template. -/
theorem C8_counterexample :
    (get_text cfgC (("base".toList)) (("/cwd".toList)) sampleA 0).1 ≠
      claimArtifact (parse_folder cfgC (("base".toList)) sampleA 0).tree
        (process_files cfgC (("base".toList)) (("/cwd".toList)) sampleA).content
    ∧ (process_files cfgC (("base".toList)) (("/cwd".toList)) sampleA).recs ≠
      [claimRecord (("main.py".toList)) ((".py".toList)) (("print hi".toList))] := by decide

/-- C8 (amended): the artifact is
`"Folder Structure\n" + separator + "\n" + tree + "\n\nFile Contents\n"
+ separator + "\n" + records` (a newline follows each separator); the
content section is exactly the concatenation of the per-file records;
and each successfully read file's record is
`"\n\n<relative-path>\nFile type: <ext-or-'no extension'>\n<content>\n\n
<separator>\nFile End\n<separator>\n"` (no space before `File type:`). -/
theorem C8_artifact_layout (cfg : Config) (folder cwd : Str) (t : FSTree)
    (c0 : Nat) :
    (get_text cfg folder cwd t c0).1 =
      ("Folder Structure\n".toList) ++ delimiter ++ ("\n".toList) ++
        (parse_folder cfg folder t c0).tree ++
        ("\n\nFile Contents\n".toList) ++ delimiter ++ ("\n".toList) ++
        (process_files cfg folder cwd t).content
    ∧ (process_files cfg folder cwd t).content =
      ((process_files cfg folder cwd t).recs).flatten
    ∧ (∀ (file_path path : Str) (bytes : List Nat),
      format_file_content file_path path bytes =
        ("\n\n".toList) ++ relpath file_path path ++ ("\n".toList) ++
        ("File type: ".toList) ++ file_type_str file_path ++ ("\n".toList) ++
        get_file_contents bytes ++
        ("\n\n".toList) ++ delimiter ++ ("\nFile End\n".toList) ++ delimiter ++ ("\n".toList)) := by
  refine ⟨?_, ?_, ?_⟩
  · rw [get_text]
    have e1 : ("Folder Structure\n".toList) = ("Folder Structure".toList) ++ ("\n".toList) := by decide
    have e2 : ("\n\nFile Contents\n".toList) =
        ("\n\n".toList) ++ ("File Contents".toList) ++ ("\n".toList) := by decide
    rw [e1, e2]
    simp [List.append_assoc]
  · rw [process_files]
    exact process_visit_flat cfg folder cwd t folder _ rfl
  · intro file_path path bytes
    rfl

/-! ### Claim C9 -/

theorem pySplit_no_sep {sep : Char} : ∀ {x : Str}, sep ∉ x →
    pySplit sep x = [x] := by
  intro x
  induction x with
  | nil => intro _; rfl
  | cons c rest ih =>
    intro h
    have hcs : ¬ c = sep := fun hc => h (by rw [hc]; exact List.mem_cons_self _ _)
    rw [pySplit, ih (fun hmem => h (List.mem_cons_of_mem c hmem))]
    dsimp only
    rw [if_neg hcs]

/-- C9, claim as stated is false: the same pattern string added via the
CLI is comma-split, while a `.exclude` line is taken whole. With the
pattern string `a,b`, the CLI source excludes the file `a` but the
file-declared source does not. -/
theorem C9_counterexample :
    should_exclude (load_exclusion_patterns [("a,b".toList)] none) false
      (("base/a".toList)) (("base".toList)) = true ∧
    should_exclude (load_exclusion_patterns [] (some [("a,b".toList)])) false
      (("base/a".toList)) (("base".toList)) = false := by decide

/-- C9 (amended): exclusion results depend only on the membership of
the merged pattern set, never on source or order; and for a pattern
string that is already stripped, non-empty, comma-free and not a `#`
comment, the CLI source and the `.exclude` source produce the same
merged membership. -/
theorem C9_source_irrelevance :
    (∀ (P Q : List Str) (hid : Bool) (path base : Str),
      (∀ p, p ∈ P ↔ p ∈ Q) →
      should_exclude P hid path base = should_exclude Q hid path base)
    ∧ (∀ pat : Str, pyStrip pat = pat → pat ≠ [] → ',' ∉ pat →
        ¬ List.isPrefixOf ['#'] pat = true →
        ∀ q, q ∈ load_exclusion_patterns [pat] none ↔
          q ∈ load_exclusion_patterns [] (some [pat])) := by
  constructor
  · intro P Q hid path base hPQ
    rw [should_exclude, should_exclude]
    have hempty : P.isEmpty = Q.isEmpty := by
      rcases hP : P.isEmpty with _ | _ <;> rcases hQ : Q.isEmpty with _ | _
      · rfl
      · exfalso
        rw [List.isEmpty_iff] at hQ
        rw [List.isEmpty_eq_false_iff_exists_mem] at hP
        obtain ⟨x, hx⟩ := hP
        have hxq := (hPQ x).mp hx
        rw [hQ] at hxq
        simp at hxq
      · exfalso
        rw [List.isEmpty_iff] at hP
        rw [List.isEmpty_eq_false_iff_exists_mem] at hQ
        obtain ⟨x, hx⟩ := hQ
        have hxp := (hPQ x).mpr hx
        rw [hP] at hxp
        simp at hxp
      · rfl
    rw [hempty]
    by_cases he : Q.isEmpty = true
    · rw [if_pos he, if_pos he]
    · rw [if_neg he, if_neg he]
      by_cases hh : (hid && is_hidden_file path) = true
      · rw [if_pos hh, if_pos hh]
      · rw [if_neg hh, if_neg hh]
        rcases hA : P.any (fun pattern =>
            pattern_matches pattern (normalize_path path base)
              (basename path)) with _ | _
        · rw [eq_comm, List.any_eq_false]
          rw [List.any_eq_false] at hA
          intro x hx
          exact hA x ((hPQ x).mpr hx)
        · rw [eq_comm, List.any_eq_true]
          rw [List.any_eq_true] at hA
          obtain ⟨x, hx, hmat⟩ := hA
          exact ⟨x, (hPQ x).mp hx, hmat⟩
  · intro pat hstrip hne hcomma hhash q
    have hcli : add_cli_patterns [pat] = [pat] := by
      rw [add_cli_patterns]
      simp only [List.flatMap_cons, List.flatMap_nil, List.append_nil]
      rw [pySplit_no_sep hcomma]
      simp [hstrip, hne]
    have hfile : add_file_patterns (some [pat]) = [pat] := by
      rw [add_file_patterns]
      have h' : ¬ ['#'] <+: pat := by
        rw [← List.isPrefixOf_iff_prefix]
        simpa using hhash
      simp [hstrip, hne, h']
    rw [load_exclusion_patterns, load_exclusion_patterns, hcli, hfile,
      add_cli_patterns, add_file_patterns]
    simp only [List.flatMap_nil, List.nil_append, List.append_nil,
      List.mem_append, List.mem_singleton]
    exact Or.comm

/-- C9 witness: order of the pattern set does not change the verdict,
and a plain pattern reaches the same membership from both sources. -/
theorem C9_source_irrelevance_witness :
    should_exclude [("*.log".toList), ("q".toList)] false (("b/app.log".toList)) (("b".toList)) =
      should_exclude [("q".toList), ("*.log".toList)] false (("b/app.log".toList)) (("b".toList))
    ∧ (("q".toList) ∈ load_exclusion_patterns [("q".toList)] none ↔
        ("q".toList) ∈ load_exclusion_patterns [] (some [("q".toList)])) :=
  ⟨C9_source_irrelevance.1 [("*.log".toList), ("q".toList)] [("q".toList), ("*.log".toList)] false
      (("b/app.log".toList)) (("b".toList))
      (fun p => by simp [List.mem_cons]; exact Or.comm),
    C9_source_irrelevance.2 (("q".toList)) (by decide) (by decide) (by decide)
      (by decide) (("q".toList))⟩

/-! ### Claim C10 -/

/-- C10: a directory whose full path string extends the path string of
a previously pruned directory (raw string prefix, not necessarily at a
separator boundary) is also skipped — it emits nothing; and in the
concrete run over root `junk` with patterns `junk` and `build`, the
directory `junk/build` is pruned, its sibling `junk/build2` matches no
pattern, `junk/build` is a non-boundary string prefix of `junk/build2`,
and `junk/build2` appears in neither the tree nor the content output. -/
theorem C10_prefix_skip :
    (∀ (cfg : Config) (folder : Str) (t : FSTree) (path : Str)
      (st : ParseSt), wfTree t = true →
      (∃ e ∈ st.excluded_dirs, e.isPrefixOf path = true) →
      (parse_visit cfg folder path t st).dirsOut = st.dirsOut ∧
      (parse_visit cfg folder path t st).filesOut = st.filesOut ∧
      (parse_visit cfg folder path t st).tree = st.tree)
    ∧ ((("junk/build".toList)) ∈ (parse_folder cfgJ (("junk".toList)) sampleJ 0).excluded_dirs
      ∧ cfgJ.excl (("junk".toList)) (("junk/build2".toList)) = false
      ∧ List.isPrefixOf (("junk/build".toList)) (("junk/build2".toList)) = true
      ∧ (parse_folder cfgJ (("junk".toList)) sampleJ 0).dirsOut = []
      ∧ (parse_folder cfgJ (("junk".toList)) sampleJ 0).filesOut = []
      ∧ (process_files cfgJ (("junk".toList)) (("/cwd".toList)) sampleJ).filesOut = []) := by
  constructor
  · intro cfg folder t path st hwf hex
    exact parse_visit_noemit cfg folder t path st hwf hex
  · exact ⟨by decide, by decide, by decide, by decide, by decide, by decide⟩

/-- C10 witness: a walk entered below a recorded pruned prefix emits
nothing. -/
theorem C10_prefix_skip_witness :
    (parse_visit cfgJ (("junk".toList)) (("junk2/x".toList)) sampleJ
      (ParseSt.mk [] [] [] [("junk2".toList)] 0)).dirsOut = [] :=
  (C10_prefix_skip.1 cfgJ (("junk".toList)) sampleJ (("junk2/x".toList))
    (ParseSt.mk [] [] [] [("junk2".toList)] 0) (by decide)
    ⟨("junk2".toList), by decide, by decide⟩).1

/-! ### Claim C1 -/

/-- C1: over any well-formed tree and any pattern set, every path that
receives a tree entry or a content record satisfies
`_should_exclude = False`, and no entry or record path lies in the cone
(itself or any `/`-descendant) of an excluded directory of the tree:
pruning is transitive. -/
theorem C1_exclusion_invariant (cfg : Config) (folder cwd : Str)
    (t : FSTree) (c0 : Nat) (hwf : wfTree t = true) (hroot : okPath folder) :
    (∀ p, p ∈ (parse_folder cfg folder t c0).dirsOut ++
        (parse_folder cfg folder t c0).filesOut ++
        (process_files cfg folder cwd t).filesOut →
      cfg.excl folder p = false)
    ∧ (∀ q, q ∈ dirPaths folder t → cfg.excl folder q = true →
      ∀ p, p ∈ (parse_folder cfg folder t c0).dirsOut ++
          (parse_folder cfg folder t c0).filesOut ++
          (process_files cfg folder cwd t).filesOut →
        ¬ inCone q p) := by
  constructor
  · intro p hp
    rcases List.mem_append.mp hp with hp | hp
    · rcases List.mem_append.mp hp with hp | hp
      · rcases (parse_visit_notexcl cfg folder t folder _ p).1 hp with hin | hok
        · simp at hin
        · exact hok
      · rcases (parse_visit_notexcl cfg folder t folder _ p).2 hp with hin | hok
        · simp at hin
        · exact hok
    · rcases process_visit_notexcl cfg folder cwd t folder _ p hp with hin | hok
      · simp at hin
      · exact hok
  · intro q hq hqx p hp
    rcases List.mem_append.mp hp with hp | hp
    · rcases List.mem_append.mp hp with hp | hp
      · rcases (parse_visit_sub cfg folder t folder _ p hwf hroot).1 hp with
          hin | ⟨-, havoid⟩
        · simp at hin
        · exact havoid q hq hqx
      · rcases (parse_visit_sub cfg folder t folder _ p hwf hroot).2 hp with
          hin | ⟨-, havoid⟩
        · simp at hin
        · exact havoid q hq hqx
    · rcases process_visit_sub cfg folder cwd t folder _ p hwf hroot hp with
        hin | ⟨-, havoid⟩
      · simp at hin
      · exact havoid q hq hqx

/-- C1 witness: in Scenario C, the emitted root entry is not excluded
and does not lie in the cone of the excluded `proj/venv`. -/
theorem C1_exclusion_invariant_witness :
    cfgC.excl (("proj".toList)) (("proj".toList)) = false ∧
    ¬ inCone (("proj/venv".toList)) (("proj".toList)) :=
  ⟨(C1_exclusion_invariant cfgC (("proj".toList)) (("/cwd".toList)) sampleC 0
      (by decide) ⟨by decide, by decide⟩).1 (("proj".toList)) (by decide),
   (C1_exclusion_invariant cfgC (("proj".toList)) (("/cwd".toList)) sampleC 0
      (by decide) ⟨by decide, by decide⟩).2 (("proj/venv".toList)) (by decide)
      (by decide) (("proj".toList)) (by decide)⟩
